import Mathlib

/-!
# Verification of the demystify-rs deduction engine

A shallow embedding, in Lean 4, of the parts of the `demystify-rs` repository
that the specification's claims are about:

* the propositional (CNF / SAT) semantics used by the SAT core,
* `SatCore::quick_mus`, `SatCore::fix_values`, `SatCore::do_solve_assumps` and
  `SatCore::assumption_solve` (`demystify-lib/src/satcore/mod.rs`),
* `PuzzleSolver::get_provable_varlits`, `get_literals_to_try_solving`,
  `get_var_mus_size_1`, `get_var_mus_cake` and the result-collection pipeline
  of `get_many_vars_small_mus_quick`
  (`demystify/src/problem/solver.rs` and `demystify-lib/src/problem/solver.rs`),
* `MusDict::add_mus`, `MusDict::min` and `merge_muscontexts`
  (`demystify-lib/src/problem/musdict.rs`).

The external CDCL solver (rustsat-glucose) is not part of the repository; it is
modelled as an oracle parameter together with a correctness interface
(`CoreOracleOk`, `AssumpOracleOk`): SAT answers come with a model, UNSAT
answers come with an unsat core that is a duplicate-free subset of the
assumptions.  A concrete executable oracle (`bruteCoreOracle`) obtained by
brute-force enumeration of assignments witnesses that the interface is
satisfiable.

SAT literals (`rustsat::types::Lit`) are embedded as nonzero `Int`s in the
usual DIMACS convention; negation is integer negation.
-/

namespace Demystify

/-! ## Propositional semantics

A CNF formula is a list of clauses; a clause is a list of literals.  An
assignment maps (positive) variable identifiers to booleans. -/

/-- Value of the literal `l` under the assignment `α` (defined on positive
variable numbers): a negative literal is the negation of its variable. -/
def litValue (α : Int → Bool) (l : Int) : Bool :=
  if l < 0 then !(α (-l)) else α l

/-- A clause is satisfied when some literal in it is true. -/
def clauseVal (α : Int → Bool) (c : List Int) : Bool :=
  c.any (litValue α)

/-- A CNF is satisfied when every clause is. -/
def cnfVal (α : Int → Bool) (F : List (List Int)) : Bool :=
  F.all (clauseVal α)

/-- All assumption literals are true under `α`. -/
def assumpsVal (α : Int → Bool) (A : List Int) : Bool :=
  A.all (litValue α)

/-- The CNF `F` is satisfiable together with the assumption literals `A`.
This is the semantic meaning of a SAT answer of the solver when `A` is the
list of assumptions (fixed unit literals are simply part of `A`). -/
def satWith (F : List (List Int)) (A : List Int) : Prop :=
  ∃ α : Int → Bool, cnfVal α F = true ∧ assumpsVal α A = true

/-- Satisfiability is downward closed in the assumption list: any list of
assumptions whose members all occur in a satisfiable assumption list is
itself satisfiable with the same CNF. -/
theorem satWith_mono {F : List (List Int)} {A B : List Int}
    (h : satWith F A) (hBA : ∀ x, x ∈ B → x ∈ A) : satWith F B := by
  obtain ⟨α, hF, hA⟩ := h
  refine ⟨α, hF, ?_⟩
  simp only [assumpsVal, List.all_eq_true] at hA ⊢
  exact fun x hx => hA x (hBA x hx)

/-- Two assumption lists with the same members are equisatisfiable. -/
theorem satWith_congr {F : List (List Int)} {A B : List Int}
    (hAB : ∀ x, x ∈ A ↔ x ∈ B) : satWith F A ↔ satWith F B :=
  ⟨fun h => satWith_mono h (fun x hx => (hAB x).mpr hx),
   fun h => satWith_mono h (fun x hx => (hAB x).mp hx)⟩

/-! ### Brute-force satisfiability

`satWith` quantifies over assignments, so it is not directly computable.
`bruteSat` decides it by enumerating all assignments to the finitely many
variables occurring in the formula and assumptions; `bruteSat_correct`
proves the equivalence.  This gives an executable, provably correct SAT
solver used to instantiate the oracle interfaces in concrete witnesses. -/

/-- The variable numbers occurring in the CNF `F` or the assumptions `A`. -/
def cnfAtoms (F : List (List Int)) (A : List Int) : List Nat :=
  ((F.flatten ++ A).map Int.natAbs).dedup

/-- Value of the literal `l` under the assignment "true exactly on the
variables in `σ`". -/
def evalLit (σ : List Nat) (l : Int) : Bool :=
  if l < 0 then !(decide (l.natAbs ∈ σ)) else decide (l.natAbs ∈ σ)

/-- Brute-force satisfiability of `F` together with assumptions `A`:
try every subset of the occurring variables as the set of true variables. -/
def bruteSat (F : List (List Int)) (A : List Int) : Bool :=
  (cnfAtoms F A).sublists.any fun σ =>
    (F.all fun c => c.any (evalLit σ)) && A.all (evalLit σ)

/-- The set-of-true-variables assignment agrees with `litValue` of the
corresponding function assignment, on every literal. -/
theorem litValue_subsetAssign (σ : List Nat) :
    litValue (fun n => decide (n.natAbs ∈ σ)) = evalLit σ := by
  funext l
  unfold litValue evalLit
  by_cases h : l < 0
  · simp only [if_pos h, Int.natAbs_neg]
  · simp only [if_neg h]

/-- On literals whose variable occurs in the atom list, the
"filter the atoms along `α`" subset assignment agrees with `α`. -/
theorem evalLit_filter_eq (atoms : List Nat) (α : Int → Bool) (l : Int)
    (hmem : l.natAbs ∈ atoms) :
    evalLit (atoms.filter (fun v : Nat => α (v : Int))) l = litValue α l := by
  have hval : decide (l.natAbs ∈ atoms.filter (fun v : Nat => α (v : Int))) =
      α ((l.natAbs : Int)) := by
    by_cases hα : α ((l.natAbs : Int)) = true
    · rw [hα, decide_eq_true_eq]
      exact List.mem_filter.mpr ⟨hmem, hα⟩
    · have hmemf : ¬ (l.natAbs ∈ atoms.filter (fun v : Nat => α (v : Int))) := by
        intro hc
        exact hα (List.mem_filter.mp hc).2
      simp only [Bool.not_eq_true] at hα
      rw [decide_eq_false hmemf, hα]
  unfold evalLit litValue
  by_cases h : l < 0
  · have hcast : ((l.natAbs : Int)) = -l := by omega
    rw [if_pos h, if_pos h, hval, hcast]
  · have hcast : ((l.natAbs : Int)) = l := by omega
    rw [if_neg h, if_neg h, hval, hcast]

theorem bruteSat_correct (F : List (List Int)) (A : List Int) :
    bruteSat F A = true ↔ satWith F A := by
  constructor
  · intro h
    simp only [bruteSat, List.any_eq_true, Bool.and_eq_true] at h
    obtain ⟨σ, _, hcl, has⟩ := h
    refine ⟨fun n => decide (n.natAbs ∈ σ), ?_, ?_⟩
    · unfold cnfVal
      have hcv : clauseVal (fun n => decide (n.natAbs ∈ σ)) = fun c => c.any (evalLit σ) := by
        funext c
        rw [clauseVal, litValue_subsetAssign]
      rw [hcv]
      exact hcl
    · unfold assumpsVal
      rw [litValue_subsetAssign]
      exact has
  · rintro ⟨α, hF, hA⟩
    simp only [bruteSat, List.any_eq_true, Bool.and_eq_true]
    refine ⟨(cnfAtoms F A).filter (fun v : Nat => α (v : Int)), ?_, ?_, ?_⟩
    · exact List.mem_sublists.mpr (List.filter_sublist _)
    · simp only [List.all_eq_true, List.any_eq_true]
      simp only [cnfVal, clauseVal, List.all_eq_true, List.any_eq_true] at hF
      intro c hc
      obtain ⟨l, hl, hval⟩ := hF c hc
      refine ⟨l, hl, ?_⟩
      rw [evalLit_filter_eq _ α l]
      · exact hval
      · exact List.mem_dedup.mpr (List.mem_map_of_mem Int.natAbs
          (List.mem_append_left _ (List.mem_flatten.mpr ⟨c, hc, hl⟩)))
    · simp only [List.all_eq_true]
      simp only [assumpsVal, List.all_eq_true] at hA
      intro l hl
      rw [evalLit_filter_eq _ α l]
      · exact hA l hl
      · exact List.mem_dedup.mpr (List.mem_map_of_mem Int.natAbs
          (List.mem_append_right _ hl))

/-! ## The SAT core oracle interface

`SatCore` (demystify-lib/src/satcore/mod.rs) wraps the external glucose
solver.  The solver itself is outside the repository, so calls into it are
modelled by an oracle function `S`.  `S a` answers a query with assumption
literals `a` (on top of the literals currently fixed as units):
`.ok none` means SAT, `.ok (some c)` means UNSAT with unsat core `c`
(this is the answer shape of `raw_assumption_solve_with_core`, which maps each
core literal `l` back through `!l`), and `.error` is a conflict-limit abort
(`SearchError::Limit`).  Rust panics
are modelled as the distinct error value `RunErr.panicked`. -/

/-- Errors of a modelled run: the solver conflict-limit error
(`SearchError::Limit`) or a Rust panic / failed assertion. -/
inductive RunErr where
  | limit
  | panicked
deriving DecidableEq, Repr

/-- Correctness interface for a solver oracle whose unit-fixed literals are
`known`: a SAT answer is truthful, and an UNSAT answer comes with a core that
is a duplicate-free subset of the assumptions and is itself (together with
the fixed literals) unsatisfiable. -/
def CoreOracleOk (F : List (List Int)) (known : List Int)
    (S : List Int → Except RunErr (Option (List Int))) : Prop :=
  ∀ a : List Int,
    (S a = .ok none → satWith F (known ++ a)) ∧
    (∀ c, S a = .ok (some c) →
      (∀ x, x ∈ c → x ∈ a) ∧ c.Nodup ∧ ¬ satWith F (known ++ c))

/-- A concrete, executable solver oracle built from `bruteSat`: on an
unsatisfiable query it reports the whole (deduplicated) assumption list as
the core.  Witnesses use it to discharge `CoreOracleOk` hypotheses. -/
def bruteCoreOracle (F : List (List Int)) (known : List Int) :
    List Int → Except RunErr (Option (List Int)) :=
  fun a => if bruteSat F (known ++ a) then .ok none else .ok (some a.dedup)

theorem bruteCoreOracle_ok (F : List (List Int)) (known : List Int) :
    CoreOracleOk F known (bruteCoreOracle F known) := by
  intro a
  constructor
  · intro h
    unfold bruteCoreOracle at h
    by_cases hb : bruteSat F (known ++ a) = true
    · exact (bruteSat_correct F (known ++ a)).mp hb
    · rw [if_neg hb] at h
      cases h
  · intro c h
    unfold bruteCoreOracle at h
    by_cases hb : bruteSat F (known ++ a) = true
    · rw [if_pos hb] at h
      cases h
    · rw [if_neg hb] at h
      cases h
      refine ⟨fun x hx => List.mem_dedup.mp hx, List.nodup_dedup a, ?_⟩
      intro hsat
      apply hb
      rw [bruteSat_correct]
      refine satWith_mono hsat ?_
      intro x hx
      rcases List.mem_append.mp hx with h1 | h1
      · exact List.mem_append_left _ h1
      · exact List.mem_append_right _ (List.mem_dedup.mpr h1)

/-! ## `SatCore::quick_mus` (demystify-lib/src/satcore/mod.rs, lines 227-263)

```rust
pub fn quick_mus(&self, known: &[Lit], lits: &[Lit], max_size: Option<i64>)
    -> SearchResult<Option<Vec<Lit>>> {
    self.fix_values(known);
    let mut known_size = 0;
    let core = self.raw_assumption_solve_with_core(lits)?;
    if core.is_none() { return Ok(core); }
    let mut core = core.unwrap();
    for &lit in lits {
        let location = core.iter().position(|&x| x == lit);
        if let Some(location) = location {
            let mut check_core = core.clone();
            check_core.remove(location);
            let candidate = self.raw_assumption_solve_with_core(&check_core)?;
            if let Some(found) = candidate { core = found; }
            else {
                known_size += 1;
                if let Some(max_size) = max_size {
                    if known_size > max_size { return Ok(None); } }
            }
        }
    }
    Ok(Some(core.into_iter().filter(|x| lits.contains(x)).collect_vec()))
}
```

The `for` loop is embedded as structural recursion on the remaining `lits`
(`quickMusGo`); removing the first occurrence of `lit` from `core` is
`List.erase`. -/

/-- The deletion loop of `quick_mus`: walk the candidate literals in input
order, try dropping each one still in the current core, shrink the core on
an UNSAT answer, and count (and cap) the literals found essential. -/
def quickMusGo (S : List Int → Except RunErr (Option (List Int)))
    (maxSize : Option Int) :
    List Int → List Int → Int → Except RunErr (Option (List Int))
  | [], core, _ => .ok (some core)
  | lit :: rest, core, knownSize =>
    if lit ∈ core then
      match S (core.erase lit) with
      | .error e => .error e
      | .ok (some found) => quickMusGo S maxSize rest found knownSize
      | .ok none =>
        match maxSize with
        | some m =>
          if knownSize + 1 > m then .ok none
          else quickMusGo S maxSize rest core (knownSize + 1)
        | none => quickMusGo S maxSize rest core (knownSize + 1)
    else quickMusGo S maxSize rest core knownSize

/-- `SatCore::quick_mus` with the solver calls abstracted into the oracle
`S` (the `fix_values(known)` at the top of the Rust function makes every
such call run with `known` fixed; correspondingly the theorems below take a
`CoreOracleOk F known S` hypothesis). -/
def quickMus (S : List Int → Except RunErr (Option (List Int)))
    (lits : List Int) (maxSize : Option Int) :
    Except RunErr (Option (List Int)) :=
  match S lits with
  | .error e => .error e
  | .ok none => .ok none
  | .ok (some core0) =>
    match quickMusGo S maxSize lits core0 0 with
    | .error e => .error e
    | .ok none => .ok none
    | .ok (some core) => .ok (some (core.filter (fun x => x ∈ lits)))

/-- Specification of the deletion loop: starting from a duplicate-free
unsatisfiable core, a returned set is a duplicate-free unsatisfiable subset
of that core, and every returned element that the loop visited is essential
(dropping it leaves a satisfiable set). -/
theorem quickMusGo_spec {F : List (List Int)} {known : List Int}
    {S : List Int → Except RunErr (Option (List Int))}
    (hS : CoreOracleOk F known S) :
    ∀ (pending core : List Int) (ks : Int) (maxSize : Option Int)
      (out : List Int),
      core.Nodup → ¬ satWith F (known ++ core) →
      quickMusGo S maxSize pending core ks = .ok (some out) →
      (∀ x, x ∈ out → x ∈ core) ∧ out.Nodup ∧ ¬ satWith F (known ++ out) ∧
      (∀ c, c ∈ out → c ∈ pending → satWith F (known ++ out.erase c)) := by
  intro pending
  induction pending with
  | nil =>
    intro core ks maxSize out hnd huns heq
    simp only [quickMusGo] at heq
    cases heq
    exact ⟨fun x hx => hx, hnd, huns, fun c _ hc => absurd hc (List.not_mem_nil c)⟩
  | cons lit rest ih =>
    intro core ks maxSize out hnd huns heq
    simp only [quickMusGo] at heq
    by_cases hmem : lit ∈ core
    · rw [if_pos hmem] at heq
      cases hcall : S (core.erase lit) with
      | error e => rw [hcall] at heq; cases heq
      | ok o =>
        cases o with
        | some found =>
          rw [hcall] at heq
          obtain ⟨hsub, hfnd, hfuns⟩ := (hS (core.erase lit)).2 found hcall
          obtain ⟨osub, ond, ouns, omin⟩ := ih found ks maxSize out hfnd hfuns heq
          refine ⟨fun x hx => List.erase_subset _ _ (hsub x (osub x hx)), ond, ouns, ?_⟩
          intro c hc hcp
          rcases List.mem_cons.mp hcp with hceq | hcr
          · exfalso
            have : c ∈ core.erase lit := hsub c (osub c hc)
            rw [hceq] at this
            exact hnd.not_mem_erase this
          · exact omin c hc hcr
        | none =>
          rw [hcall] at heq
          have hsat : satWith F (known ++ core.erase lit) := (hS (core.erase lit)).1 hcall
          have hcont : quickMusGo S maxSize rest core (ks + 1) = .ok (some out) := by
            cases maxSize with
            | none => exact heq
            | some m =>
              have heq2 : (if ks + 1 > m then (Except.ok none : Except RunErr (Option (List Int)))
                  else quickMusGo S (some m) rest core (ks + 1)) = .ok (some out) := heq
              by_cases habort : ks + 1 > m
              · rw [if_pos habort] at heq2
                cases heq2
              · rw [if_neg habort] at heq2
                exact heq2
          obtain ⟨osub, ond, ouns, omin⟩ := ih core (ks + 1) maxSize out hnd huns hcont
          refine ⟨osub, ond, ouns, ?_⟩
          intro c hc hcp
          rcases List.mem_cons.mp hcp with hceq | hcr
          · subst hceq
            refine satWith_mono hsat ?_
            intro x hx
            rcases List.mem_append.mp hx with h1 | h1
            · exact List.mem_append_left _ h1
            · refine List.mem_append_right _ ?_
              obtain ⟨hxne, hxout⟩ := ond.mem_erase_iff.mp h1
              exact hnd.mem_erase_iff.mpr ⟨hxne, osub x hxout⟩
          · exact omin c hc hcr
    · rw [if_neg hmem] at heq
      obtain ⟨osub, ond, ouns, omin⟩ := ih core ks maxSize out hnd huns heq
      refine ⟨osub, ond, ouns, ?_⟩
      intro c hc hcp
      rcases List.mem_cons.mp hcp with hceq | hcr
      · exfalso
        rw [hceq] at hc
        exact hmem (osub lit hc)
      · exact omin c hc hcr

/-- **C1**.  For every CNF, every list of known literals and every list of
candidate assumption literals, if `SatCore::quick_mus(known, candidates,
max_size)` returns a set `M` (rather than none) then `M` is a subset of the
candidates, the conjunction of `M` with the known literals is unsatisfiable,
and removing any single element `c` of `M` leaves a set whose conjunction
with the known literals is satisfiable (`M` is minimal, though not
necessarily minimum).  The solver is an arbitrary oracle satisfying the
correctness interface `CoreOracleOk`. -/
theorem quick_mus_correct (F : List (List Int)) (known lits : List Int)
    (maxSize : Option Int)
    (S : List Int → Except RunErr (Option (List Int)))
    (hS : CoreOracleOk F known S) (M : List Int)
    (hret : quickMus S lits maxSize = .ok (some M)) :
    (∀ x, x ∈ M → x ∈ lits) ∧ ¬ satWith F (known ++ M) ∧
    (∀ c, c ∈ M → satWith F (known ++ M.erase c)) := by
  unfold quickMus at hret
  cases hcall : S lits with
  | error e => rw [hcall] at hret; cases hret
  | ok o =>
    cases o with
    | none => rw [hcall] at hret; cases hret
    | some core0 =>
      rw [hcall] at hret
      obtain ⟨hsub0, hnd0, huns0⟩ := (hS lits).2 core0 hcall
      have hret2 : (match quickMusGo S maxSize lits core0 0 with
          | Except.error e => Except.error e
          | Except.ok none => Except.ok none
          | Except.ok (some core) =>
              Except.ok (some (core.filter (fun x => x ∈ lits)))) =
          Except.ok (some M) := hret
      cases hgo : quickMusGo S maxSize lits core0 0 with
      | error e => rw [hgo] at hret2; cases hret2
      | ok o2 =>
        cases o2 with
        | none => rw [hgo] at hret2; cases hret2
        | some out =>
          rw [hgo] at hret2
          obtain ⟨osub, ond, ouns, omin⟩ :=
            quickMusGo_spec hS lits core0 0 maxSize out hnd0 huns0 hgo
          have hout_lits : ∀ x, x ∈ out → x ∈ lits := fun x hx => hsub0 x (osub x hx)
          have hfilter : out.filter (fun x => x ∈ lits) = out := by
            rw [List.filter_eq_self]
            intro a ha
            exact decide_eq_true (hout_lits a ha)
          have hret3 : (Except.ok (some (out.filter (fun x => x ∈ lits)))
              : Except RunErr (Option (List Int))) = Except.ok (some M) := hret2
          rw [hfilter] at hret3
          cases hret3
          exact ⟨hout_lits, ouns, fun c hc => omin c hc (hout_lits c hc)⟩

/-- Witness for C1 at a concrete instance: CNF `{{¬x1}}`, no known literals,
candidates `[x1, x2]`; `quick_mus` returns `M = [x1]`, and the theorem
applies with the brute-force oracle. -/
theorem quick_mus_correct_witness :
    (∀ x, x ∈ [(1 : Int)] → x ∈ [(1 : Int), 2]) ∧
    ¬ satWith [[-1]] ([] ++ [1]) ∧
    (∀ c, c ∈ [(1 : Int)] → satWith [[-1]] ([] ++ ([(1 : Int)].erase c))) :=
  quick_mus_correct [[-1]] [] [1, 2] none (bruteCoreOracle [[-1]] [])
    (bruteCoreOracle_ok _ _) [1] (by rfl)

/-- A false `bruteSat` refutes semantic satisfiability. -/
theorem unsat_of_bruteSat_eq_false {F : List (List Int)} {A : List Int}
    (h : bruteSat F A = false) : ¬ satWith F A := by
  intro hs
  rw [(bruteSat_correct F A).mpr hs] at h
  cases h

/-! ## `PuzzleSolver::get_var_mus_cake` (demystify/src/problem/solver.rs,
lines 743-785)

```rust
pub fn get_var_mus_cake(&self, lit: Lit, max_size: i64)
    -> SearchResult<Option<Vec<Lit>>> {
    let mut conset = self.puzzleparse.conset_lits.iter().copied().collect_vec();
    conset.shuffle(&mut rand::rng());
    let conset_chunks: Vec<Vec<Lit>> = (0..=max_size).map(|i| {
        conset.iter().enumerate().filter_map(|(j, &lit)| {
            if j % (max_size as usize + 1) == i as usize { None } else { Some(lit) }
        }).collect()
    }).collect();
    for chunk in conset_chunks {
        let mut lits: Vec<Lit> = vec![];
        lits.extend(chunk);
        lits.push(!lit);
        let mus = self.get_satcore().quick_mus(&self.knownlits, &lits, Some(max_size + 1))?;
        if let Some(m) = mus {
            return Ok(Some(m.into_iter()
                .filter(|x| self.puzzleparse.conset_lits.contains(x)).collect()));
        }
        lits.clear();
    }
    Ok(None)
}
```

The shuffled constraint list is a parameter (`conset`): the claims quantify
over every permutation.  `max_size` is embedded as a `Nat` (`k`), matching
the `as usize` casts used for the index arithmetic. -/

/-- Chunk `i` of the cake partition: the shuffled constraint list with the
positions congruent to `i` mod `k+1` omitted. -/
def cakeChunk (conset : List Int) (k i : Nat) : List Int :=
  conset.enum.filterMap (fun p => if p.1 % (k + 1) = i then none else some p.2)

/-- The probe loop of `get_var_mus_cake` over the list of omitted classes. -/
def cakeLoop (S : List Int → Except RunErr (Option (List Int)))
    (conset : List Int) (lit : Int) (k : Nat) :
    List Nat → Except RunErr (Option (List Int))
  | [] => .ok none
  | i :: rest =>
    match quickMus S (cakeChunk conset k i ++ [-lit]) (some ((k : Int) + 1)) with
    | .error e => .error e
    | .ok (some m) => .ok (some (m.filter (fun x => x ∈ conset)))
    | .ok none => cakeLoop S conset lit k rest

/-- `PuzzleSolver::get_var_mus_cake`, with the per-thread `SatCore` (whose
`quick_mus` runs with the solver's known literals fixed) abstracted into the
oracle `S`. -/
def getVarMusCake (S : List Int → Except RunErr (Option (List Int)))
    (conset : List Int) (lit : Int) (k : Nat) :
    Except RunErr (Option (List Int)) :=
  cakeLoop S conset lit k (List.range (k + 1))

/-- **C3, counterexample.**  The claim "if some MUS of size at most
`max_size` exists within the CON set then `get_var_mus_cake` does not
return none" is false.  Concrete instance: CNF `{{¬c1, t}, {¬b1, ¬b2, ¬b3, t}}`
with `t = x10`, constraint set (after the shuffle) `[c1, f1, b1, f2, b2, f3, b3]
= [1, 5, 2, 6, 3, 7, 4]`, target literal `t`, `max_size = 1`, no known
literals, and the brute-force solver oracle.  `[1]` is a MUS of size `1`
(`c1 ∧ ¬t` is unsatisfiable), but the probe on the chunk `[5, 6, 7]` is
satisfiable and the probe on the chunk `[1, 2, 3, 4]` aborts through the
essential-count cap of `quick_mus` (the solver's first core drops `c1` and
the loop then certifies the three essentials `b1, b2, b3 > max_size + 1`),
so every probe fails and the function returns `Ok(None)`. -/
theorem get_var_mus_cake_counterexample :
    CoreOracleOk [[-1, 10], [-2, -3, -4, 10]] []
      (bruteCoreOracle [[-1, 10], [-2, -3, -4, 10]] []) ∧
    (∀ x, x ∈ [(1 : Int)] → x ∈ [(1 : Int), 5, 2, 6, 3, 7, 4]) ∧
    [(1 : Int)].length ≤ 1 ∧
    ¬ satWith [[-1, 10], [-2, -3, -4, 10]] ([] ++ ([(1 : Int)] ++ [-10])) ∧
    getVarMusCake (bruteCoreOracle [[-1, 10], [-2, -3, -4, 10]] [])
      [1, 5, 2, 6, 3, 7, 4] 10 1 = .ok none := by
  refine ⟨bruteCoreOracle_ok _ _, by decide, by decide, ?_, by rfl⟩
  exact unsat_of_bruteSat_eq_false (by decide)

/-- **C3, amended.**  What the pigeonhole argument does prove: if a
duplicate-free MUS `M` of size at most `max_size` lies within the (shuffled)
CON list, then some omitted class `i ≤ max_size` is disjoint from `M`, so
chunk `i` contains all of `M` and that probe's assumption set (chunk,
negated target, known literals) is unsatisfiable — its initial solve cannot
answer SAT.  The probe can still abort through the `max_size + 1` cap on
essential literals inside `quick_mus` (see the counterexample), so
`get_var_mus_cake` may nonetheless return none. -/
theorem get_var_mus_cake_pigeonhole (conset M : List Int) (k : Nat)
    (lit : Int) (F : List (List Int)) (known : List Int)
    (hsub : ∀ x, x ∈ M → x ∈ conset) (hnd : M.Nodup) (hlen : M.length ≤ k)
    (huns : ¬ satWith F (known ++ (M ++ [-lit]))) :
    ∃ i, i ≤ k ∧ (∀ x, x ∈ M → x ∈ cakeChunk conset k i) ∧
      ¬ satWith F (known ++ (cakeChunk conset k i ++ [-lit])) := by
  classical
  set img : Finset Nat :=
    M.toFinset.image (fun x => (conset.indexOf x) % (k + 1)) with himg
  have hcard : img.card < (Finset.range (k + 1)).card := by
    calc img.card ≤ M.toFinset.card := Finset.card_image_le
      _ = M.length := by rw [List.toFinset_card_of_nodup hnd]
      _ ≤ k := hlen
      _ < (Finset.range (k + 1)).card := by rw [Finset.card_range]; omega
  have hex : ∃ i ∈ Finset.range (k + 1), i ∉ img := by
    by_contra hcon
    push_neg at hcon
    have hsubs : Finset.range (k + 1) ⊆ img := fun i hi => hcon i hi
    exact absurd (Finset.card_le_card hsubs) (by omega)
  obtain ⟨i, hirange, hiimg⟩ := hex
  have hik : i ≤ k := by
    have := Finset.mem_range.mp hirange
    omega
  have hchunk : ∀ x, x ∈ M → x ∈ cakeChunk conset k i := by
    intro x hx
    have hxc : x ∈ conset := hsub x hx
    have hidx : conset.indexOf x % (k + 1) ≠ i := by
      intro hcon
      exact hiimg (Finset.mem_image.mpr ⟨x, List.mem_toFinset.mpr hx, hcon⟩)
    have hlt : conset.indexOf x < conset.length := List.indexOf_lt_length.mpr hxc
    refine List.mem_filterMap.mpr ⟨(conset.indexOf x, x), ?_, ?_⟩
    · refine List.mk_mem_enum_iff_getElem?.mpr ?_
      rw [List.getElem?_eq_getElem hlt, List.getElem_indexOf hlt]
    · rw [if_neg hidx]
  refine ⟨i, hik, hchunk, ?_⟩
  intro hsat
  apply huns
  refine satWith_mono hsat ?_
  intro x hx
  rcases List.mem_append.mp hx with h1 | h1
  · exact List.mem_append_left _ h1
  · rcases List.mem_append.mp h1 with h2 | h2
    · exact List.mem_append_right _ (List.mem_append_left _ (hchunk x h2))
    · exact List.mem_append_right _ (List.mem_append_right _ h2)

/-- Witness for the amended C3 theorem at a concrete instance:
CNF `{{¬c1, t}}`, constraint list `[2, 3]` with `M = [2]`, `k = 1`. -/
theorem get_var_mus_cake_pigeonhole_witness :
    ∃ i, i ≤ 1 ∧ (∀ x, x ∈ [(2 : Int)] → x ∈ cakeChunk [2, 3] 1 i) ∧
      ¬ satWith [[-2, 10]] ([] ++ (cakeChunk [2, 3] 1 i ++ [-10])) :=
  get_var_mus_cake_pigeonhole [2, 3] [2] 1 10 [[-2, 10]] []
    (by decide) (by decide) (by decide)
    (unsat_of_bruteSat_eq_false (by decide))

/-! ## `PuzzleSolver::get_provable_varlits`
(demystify/src/problem/solver.rs, lines 208-235) and
`get_literals_to_try_solving` (lines 430-440)

```rust
pub fn get_literals_to_try_solving(&mut self) -> BTreeSet<Lit> {
    let lits = if self.solver_config.only_assignments {
        &self.puzzleparse.varset_lits_neg
    } else {
        &self.puzzleparse.varset_lits
    };
    lits.iter().copied()
        .filter(|&lit| !(self.knownlits.contains(&lit) || self.knownlits.contains(&!lit)))
        .collect()
}

pub fn get_provable_varlits(&mut self) -> &BTreeSet<Lit> {
    if self.tosolvelits.is_none() {
        let mut litorig: Vec<Lit> = self.puzzleparse.conset_lits.iter().copied().collect();
        litorig.extend_from_slice(&self.knownlits);
        let lits = self.get_literals_to_try_solving();
        let provable: BTreeSet<_> = lits.par_iter().filter_map(|&lit| {
            if !(self.knownlits.contains(&lit) || self.knownlits.contains(&!lit)) {
                let mut lits = litorig.clone();
                lits.push(lit);
                if !self.get_satcore()
                    .assumption_solve(self.get_known_lits(), &lits)
                    .expect("Solving the basic problem took too long, solver timed out")
                { return Some(!lit); }
            }
            None
        }).collect();
        self.tosolvelits = Some(provable);
    }
    self.tosolvelits.as_ref().unwrap()
}
```

The `demystify` crate's `satcore` module is not under src/ (only
`demystify-lib`'s is, whose `assumption_solve` takes a single argument), so
the two-argument `assumption_solve(known, lits)` used here is modelled from
the spec through the oracle interface `AssumpOracleOk` below.  The `.expect`
panics on a limit error and aborts the whole call, so a returned set only
ever contains elements produced by `Ok` answers; the embedding's
`match ... | _ => none` captures exactly the membership behaviour the claims
C2 and C10 are about. -/

/-- Modelled from the spec: the `demystify` crate's
`SatCore::assumption_solve(known, lits)` (its `satcore` module is missing
from src/).  Per §4.1 of the spec it fixes the `known` literals as permanent
units and then solves with `lits` as assumptions, answering
`Ok(true)` = SAT, `Ok(false)` = UNSAT, `Err(SearchError::Limit)` on a
conflict-limit abort.  `AssumpOracleOk` is the corresponding correctness
interface for the oracle modelling it. -/
def AssumpOracleOk (F : List (List Int))
    (S : List Int → List Int → Except RunErr Bool) : Prop :=
  ∀ known a : List Int,
    (S known a = .ok true → satWith F (known ++ a)) ∧
    (S known a = .ok false → ¬ satWith F (known ++ a))

/-- Concrete executable instance of the two-argument solve oracle, built
from `bruteSat`. -/
def bruteAssumpOracle (F : List (List Int)) :
    List Int → List Int → Except RunErr Bool :=
  fun known a => .ok (bruteSat F (known ++ a))

theorem bruteAssumpOracle_ok (F : List (List Int)) :
    AssumpOracleOk F (bruteAssumpOracle F) := by
  intro known a
  constructor
  · intro h
    apply (bruteSat_correct F (known ++ a)).mp
    unfold bruteAssumpOracle at h
    cases hb : bruteSat F (known ++ a)
    · rw [hb] at h
      cases h
    · rfl
  · intro h
    apply unsat_of_bruteSat_eq_false
    unfold bruteAssumpOracle at h
    cases hb : bruteSat F (known ++ a)
    · rfl
    · rw [hb] at h
      cases h

/-- `PuzzleSolver::get_literals_to_try_solving`: the candidate literals that
are neither known nor negations of known literals. -/
def getLiteralsToTrySolving (onlyAssignments : Bool)
    (varsetLits varsetLitsNeg knownlits : List Int) : List Int :=
  (if onlyAssignments then varsetLitsNeg else varsetLits).filter
    (fun lit => !(decide (lit ∈ knownlits) || decide (-lit ∈ knownlits)))

/-- The recomputation branch of `PuzzleSolver::get_provable_varlits` (the
body run when the cache `tosolvelits` is empty): for every candidate
literal, solve with the CON literals, the known literals and the candidate
as assumptions, and report the candidate's negation when the answer is
UNSAT. -/
def computeProvableVarlits (S : List Int → List Int → Except RunErr Bool)
    (consetLits knownlits : List Int) (onlyAssignments : Bool)
    (varsetLits varsetLitsNeg : List Int) : List Int :=
  let litorig := consetLits ++ knownlits
  (getLiteralsToTrySolving onlyAssignments varsetLits varsetLitsNeg
      knownlits).filterMap
    (fun lit =>
      if !(decide (lit ∈ knownlits) || decide (-lit ∈ knownlits)) then
        match S knownlits (litorig ++ [lit]) with
        | .ok false => some (-lit)
        | _ => none
      else none)

/-- **C2.**  Every literal `l` reported provable by
`get_provable_varlits` is sound: the CON literals together with the known
literals and `¬l` are unsatisfiable, for any solver oracle satisfying the
correctness interface. -/
theorem get_provable_varlits_sound (F : List (List Int))
    (S : List Int → List Int → Except RunErr Bool) (hS : AssumpOracleOk F S)
    (consetLits knownlits varsetLits varsetLitsNeg : List Int)
    (oa : Bool) (l : Int)
    (hl : l ∈ computeProvableVarlits S consetLits knownlits oa
      varsetLits varsetLitsNeg) :
    ¬ satWith F (consetLits ++ knownlits ++ [-l]) := by
  unfold computeProvableVarlits at hl
  obtain ⟨lit, -, hres⟩ := List.mem_filterMap.mp hl
  by_cases hguard :
      (!(decide (lit ∈ knownlits) || decide (-lit ∈ knownlits))) = true
  · rw [if_pos hguard] at hres
    cases hcall : S knownlits ((consetLits ++ knownlits) ++ [lit]) with
    | error e => rw [hcall] at hres; cases hres
    | ok b =>
      cases b with
      | true => rw [hcall] at hres; cases hres
      | false =>
        rw [hcall] at hres
        have hl_eq : l = -lit := by
          have : some (-lit) = some l := hres
          cases this
          rfl
        have huns := (hS knownlits ((consetLits ++ knownlits) ++ [lit])).2 hcall
        rw [hl_eq]
        intro hsat
        apply huns
        refine satWith_mono hsat ?_
        intro x hx
        rcases List.mem_append.mp hx with h1 | h1
        · exact List.mem_append_left _ (List.mem_append_right _ h1)
        · rcases List.mem_append.mp h1 with h2 | h2
          · exact List.mem_append_left _ h2
          · refine List.mem_append_right _ ?_
            rw [neg_neg]
            exact h2
  · rw [if_neg hguard] at hres
    cases hres

/-- Witness for C2: CNF `{{¬x1}}`, no CON or known literals, candidate list
`[x1]`; the computed provable set is `[¬x1]` and the reported literal `¬x1`
satisfies the soundness property. -/
theorem get_provable_varlits_sound_witness :
    ¬ satWith [[-1]] ([] ++ [] ++ [-(-1 : Int)]) :=
  get_provable_varlits_sound [[-1]] (bruteAssumpOracle [[-1]])
    (bruteAssumpOracle_ok _) [] [] [1] [] false (-1) (by decide)

/-- **C10.**  Whenever `get_provable_varlits` recomputes its cached set, the
result is disjoint from the known literals: a reported literal `l` has
neither `l` nor `¬l` in the known-literal list.  This needs no property of
the solver oracle at all — the guards filter known literals out before
solving. -/
theorem get_provable_varlits_disjoint_known
    (S : List Int → List Int → Except RunErr Bool)
    (consetLits knownlits varsetLits varsetLitsNeg : List Int)
    (oa : Bool) (l : Int)
    (hl : l ∈ computeProvableVarlits S consetLits knownlits oa
      varsetLits varsetLitsNeg) :
    l ∉ knownlits ∧ -l ∉ knownlits := by
  unfold computeProvableVarlits at hl
  obtain ⟨lit, -, hres⟩ := List.mem_filterMap.mp hl
  by_cases hguard :
      (!(decide (lit ∈ knownlits) || decide (-lit ∈ knownlits))) = true
  · have hl_eq : l = -lit := by
      rw [if_pos hguard] at hres
      cases hcall : S knownlits ((consetLits ++ knownlits) ++ [lit]) with
      | error e => rw [hcall] at hres; cases hres
      | ok b =>
        cases b with
        | true => rw [hcall] at hres; cases hres
        | false =>
          rw [hcall] at hres
          have : some (-lit) = some l := hres
          cases this
          rfl
    simp only [Bool.not_eq_eq_eq_not, Bool.not_true, Bool.or_eq_false_iff,
      decide_eq_false_iff_not] at hguard
    rw [hl_eq, neg_neg]
    exact ⟨hguard.2, hguard.1⟩
  · rw [if_neg hguard] at hres
    cases hres

/-- Witness for C10: known literals `[x2]`, candidates `[x1, x2, x3]`, an
oracle answering UNSAT everywhere; the computed set contains `¬x1`, and
neither `¬x1` nor `x1` is known. -/
theorem get_provable_varlits_disjoint_known_witness :
    (-1 : Int) ∉ [(2 : Int)] ∧ -(-1 : Int) ∉ [(2 : Int)] :=
  get_provable_varlits_disjoint_known (fun _ _ => .ok false) [] [2]
    [1, 2, 3] [] false (-1) (by decide)

/-! ## Ordered-set models for `BTreeSet` / `BTreeMap`

`BTreeSet<T>` is modelled as its sorted ascending list of elements and
insertion as ordered insertion without duplicates; the orders mirror Rust's
derived lexicographic `Ord` instances. -/

/-- `Ord` for Rust `i64` / `Lit`. -/
def cmpInt (a b : Int) : Ordering :=
  if a < b then .lt else if b < a then .gt else .eq

/-- Rust's lexicographic `Ord` on `Vec<Lit>` / iterated `BTreeSet<Lit>`. -/
def cmpList : List Int → List Int → Ordering
  | [], [] => .eq
  | [], _ :: _ => .lt
  | _ :: _, [] => .gt
  | x :: xs, y :: ys =>
    match cmpInt x y with
    | .eq => cmpList xs ys
    | o => o

theorem cmpInt_eq_iff (a b : Int) : cmpInt a b = .eq ↔ a = b := by
  unfold cmpInt
  by_cases h1 : a < b
  · simp only [if_pos h1]
    constructor
    · intro h; cases h
    · intro h; omega
  · by_cases h2 : b < a
    · simp only [if_neg h1, if_pos h2]
      constructor
      · intro h; cases h
      · intro h; omega
    · simp only [if_neg h1, if_neg h2]
      constructor
      · intro _; omega
      · intro _; trivial

theorem cmpList_eq_iff : ∀ xs ys : List Int, cmpList xs ys = .eq ↔ xs = ys := by
  intro xs
  induction xs with
  | nil =>
    intro ys
    cases ys with
    | nil => simp [cmpList]
    | cons y ys => simp [cmpList]
  | cons x xs ih =>
    intro ys
    cases ys with
    | nil => simp [cmpList]
    | cons y ys =>
      simp only [cmpList]
      cases hc : cmpInt x y with
      | eq =>
        have hxy : x = y := (cmpInt_eq_iff x y).mp hc
        simp only [hxy, ih ys]
        constructor
        · intro h; rw [h]
        · intro h; cases h; rfl
      | lt =>
        constructor
        · intro h; cases h
        · intro h
          cases h
          rw [(cmpInt_eq_iff x x).mpr rfl] at hc
          cases hc
      | gt =>
        constructor
        · intro h; cases h
        · intro h
          cases h
          rw [(cmpInt_eq_iff x x).mpr rfl] at hc
          cases hc

/-- `BTreeSet<Vec<Lit>>::insert`, on the sorted-list model. -/
def btreeInsertVec (x : List Int) : List (List Int) → List (List Int)
  | [] => [x]
  | y :: ys =>
    match cmpList x y with
    | .lt => x :: y :: ys
    | .eq => y :: ys
    | .gt => y :: btreeInsertVec x ys

/-! ## `PuzzleSolver::get_var_mus_size_1`
(demystify/src/problem/solver.rs, lines 606-636, and
demystify-lib/src/problem/solver.rs, lines 458-488)

Both crates contain the same recursive bisection
(`get_var_mus_size_1_loop`); they differ in one line of the wrapper — the
answer returned when a size-0 MUS exists:

```rust
// demystify/src/problem/solver.rs
if !solvable { return Ok(vec![vec![]]); }
// demystify-lib/src/problem/solver.rs
if !solvable { return Ok(vec![]); }
```

As with `get_provable_varlits`, the two-argument `SatCore` calls of the
`demystify` crate (`assumption_solve(known, lits)` and
`assumption_solve_with_core(known, lits)`) are modelled from the spec as
oracles (`S2` answering SAT/UNSAT, `SC` answering SAT or an unsat core).
The seeded `ChaCha20Rng` shuffle of the constraint set is modelled as an
unspecified permutation: the wrappers take the already-shuffled list. -/

/-- `count.is_some_and(|x| muses.len() >= x)`. -/
def countReached (count : Option Nat) (muses : List (List Int)) : Bool :=
  match count with
  | some x => decide (muses.length ≥ x)
  | none => false

/-- The opportunistic insertion of a size-1 core found mid-recursion:

```rust
if core.len() == 2 {
    let mus = core.iter().copied().filter(|x| lits.contains(x)).collect_vec();
    assert!(mus.len() == 1);
    muses.insert(mus);
}
```

The failed assertion is modelled as `RunErr.panicked`. -/
def size1EarlyInsert (core lits : List Int) (muses : List (List Int)) :
    Except RunErr (List (List Int)) :=
  if core.length = 2 then
    let mus := core.filter (fun x => x ∈ lits)
    if mus.length = 1 then .ok (btreeInsertVec mus muses)
    else .error .panicked
  else .ok muses

/-- `PuzzleSolver::get_var_mus_size_1_loop`: recursively bisect the
candidate constraint list, probing each half together with the negated
target literal, and record every singleton that stays UNSAT. -/
def getVarMusSize1Loop
    (SC : List Int → List Int → Except RunErr (Option (List Int)))
    (known : List Int) (lit : Int) (count : Option Nat)
    (lits : List Int) (muses : List (List Int)) :
    Except RunErr (List (List Int)) :=
  if h1 : (lits.isEmpty || countReached count muses) = true then .ok muses
  else
    match SC known (lits ++ [-lit]) with
    | .error e => .error e
    | .ok none => .ok muses
    | .ok (some core) =>
      if h2 : lits.length = 1 then .ok (btreeInsertVec lits muses)
      else
        match size1EarlyInsert core lits muses with
        | .error e => .error e
        | .ok muses1 =>
          match getVarMusSize1Loop SC known lit count
              (lits.take (lits.length / 2)) muses1 with
          | .error e => .error e
          | .ok muses2 =>
            getVarMusSize1Loop SC known lit count
              (lits.drop (lits.length / 2)) muses2
termination_by lits.length
decreasing_by
  all_goals
    simp only [List.length_take, List.length_drop]
    have hne : lits.isEmpty = false := by
      cases hh : lits.isEmpty
      · rfl
      · rw [hh] at h1
        simp at h1
    have hlen0 : lits ≠ [] := by
      intro hc
      rw [hc] at hne
      cases hne
    have hpos : 0 < lits.length := List.length_pos.mpr hlen0
    omega

/-- The common tail of both `get_var_mus_size_1` wrappers: split the
shuffled constraint list in half and run the bisection loop on each half,
threading the accumulated MUS set. -/
def getVarMusSize1Split
    (SC : List Int → List Int → Except RunErr (Option (List Int)))
    (known shuffledConset : List Int) (lit : Int) (count : Option Nat) :
    Except RunErr (List (List Int)) :=
  let mid := shuffledConset.length / 2
  match getVarMusSize1Loop SC known lit count (shuffledConset.take mid) [] with
  | .error e => .error e
  | .ok muses1 =>
    getVarMusSize1Loop SC known lit count (shuffledConset.drop mid) muses1

/-- `PuzzleSolver::get_var_mus_size_1` of the `demystify` crate: on a size-0
MUS (solving with `¬lit` alone is UNSAT) it returns `vec![vec![]]`. -/
def getVarMusSize1 (S2 : List Int → List Int → Except RunErr Bool)
    (SC : List Int → List Int → Except RunErr (Option (List Int)))
    (known shuffledConset : List Int) (lit : Int) (count : Option Nat) :
    Except RunErr (List (List Int)) :=
  match S2 known [-lit] with
  | .error e => .error e
  | .ok false => .ok [[]]
  | .ok true => getVarMusSize1Split SC known shuffledConset lit count

/-- `PuzzleSolver::get_var_mus_size_1` of the `demystify-lib` crate: on a
size-0 MUS it returns the empty list `vec![]`. -/
def getVarMusSize1Lib (S2 : List Int → List Int → Except RunErr Bool)
    (SC : List Int → List Int → Except RunErr (Option (List Int)))
    (known shuffledConset : List Int) (lit : Int) (count : Option Nat) :
    Except RunErr (List (List Int)) :=
  match S2 known [-lit] with
  | .error e => .error e
  | .ok false => .ok []
  | .ok true => getVarMusSize1Split SC known shuffledConset lit count

/-- **C5, counterexample.**  The claim "`get_var_mus_size_1(ℓ, count)`
returns `[[]]` for a literal entailed by fixed facts alone" cites both
crates' implementations, but fails for the `demystify-lib` one.  Concrete
instance: CNF `{{x1}}`, target literal `x1` (entailed: assuming `¬x1` is
UNSAT), no known literals, constraint list `[2, 3]`, `count = None`, oracles
instantiated by the brute-force solver: the `demystify-lib` version returns
`Ok([])`, not `Ok([[]])`. -/
theorem get_var_mus_size_1_counterexample :
    ¬ satWith [[1]] ([] ++ [-(1 : Int)]) ∧
    getVarMusSize1Lib (bruteAssumpOracle [[1]]) (bruteCoreOracle [[1]])
      [] [2, 3] 1 none = .ok [] ∧
    (Except.ok ([] : List (List Int)) : Except RunErr (List (List Int))) ≠
      .ok [[]] := by
  refine ⟨unsat_of_bruteSat_eq_false (by decide), by rfl, ?_⟩
  intro h
  cases h

/-- **C5, amended.**  For a literal whose single-assumption probe `¬lit`
answers UNSAT (a literal entailed by the fixed facts alone), and for every
value of `count`: the `demystify` crate's `get_var_mus_size_1` returns
`[[]]` (one element, the empty MUS), while the `demystify-lib` crate's
returns the empty list `[]`. -/
theorem get_var_mus_size_1_entailed
    (S2 : List Int → List Int → Except RunErr Bool)
    (SC : List Int → List Int → Except RunErr (Option (List Int)))
    (known shuffledConset : List Int) (lit : Int) (count : Option Nat)
    (hcall : S2 known [-lit] = .ok false) :
    getVarMusSize1 S2 SC known shuffledConset lit count = .ok [[]] ∧
    getVarMusSize1Lib S2 SC known shuffledConset lit count = .ok [] := by
  unfold getVarMusSize1 getVarMusSize1Lib
  rw [hcall]
  exact ⟨rfl, rfl⟩

/-- Witness for the amended C5 theorem at the concrete instance of the
counterexample. -/
theorem get_var_mus_size_1_entailed_witness :
    getVarMusSize1 (bruteAssumpOracle [[1]]) (bruteCoreOracle [[1]])
      [] [2, 3] 1 (some 5) = .ok [[]] ∧
    getVarMusSize1Lib (bruteAssumpOracle [[1]]) (bruteCoreOracle [[1]])
      [] [2, 3] 1 (some 5) = .ok [] :=
  get_var_mus_size_1_entailed (bruteAssumpOracle [[1]])
    (bruteCoreOracle [[1]]) [] [2, 3] 1 (some 5) (by rfl)

/-! ## `MusDict` (demystify-lib/src/problem/musdict.rs)

```rust
pub struct MusDict { muses: HashMap<Lit, BTreeSet<MusContext>> }
pub struct MusContext { pub lits: BTreeSet<Lit>, pub mus: BTreeSet<Lit> }

pub fn add_mus(&mut self, lit: Lit, new_mus: BTreeSet<Lit>) {
    if let Some(mus_list) = self.muses.get_mut(&lit) {
        let len = if let Some(element) = mus_list.iter().next() {
            element.mus_len()
        } else { usize::MAX };
        if new_mus.len() < len {
            mus_list.clear();
            mus_list.insert(MusContext::new(lit, new_mus));
        } else if new_mus.len() == len {
            mus_list.insert(MusContext::new(lit, new_mus));
        }
    } else {
        let hs: BTreeSet<_> = std::iter::once(MusContext::new(lit, new_mus)).collect();
        self.muses.insert(lit, hs);
    }
}

pub fn min(&self) -> Option<usize> {
    self.muses.values()
        .flat_map(|sets| sets.iter().map(MusContext::mus_len)).min()
}
```

`BTreeSet<Lit>` values are embedded as their sorted ascending lists; the
`HashMap` as an association list with distinct keys (`add_mus` updates the
entry in place or inserts a fresh key, and no claim depends on hash-map
iteration order beyond the multiset of values). -/

/-- `MusContext`: the literals a MUS justifies and the MUS itself, both
`BTreeSet<Lit>` embedded as sorted lists. -/
structure MusContext where
  lits : List Int
  mus : List Int
deriving DecidableEq, Repr

/-- `MusContext::new(l, mus)`: `lits = BTreeSet::from([l])`. -/
def musContextNew (l : Int) (mus : List Int) : MusContext :=
  ⟨[l], mus⟩

/-- Rust's derived lexicographic `Ord` on `MusContext` (field order:
`lits`, then `mus`). -/
def cmpMC (a b : MusContext) : Ordering :=
  match cmpList a.lits b.lits with
  | .eq => cmpList a.mus b.mus
  | o => o

theorem cmpMC_eq_iff (a b : MusContext) : cmpMC a b = .eq ↔ a = b := by
  unfold cmpMC
  cases hl : cmpList a.lits b.lits with
  | eq =>
    have h1 : a.lits = b.lits := (cmpList_eq_iff _ _).mp hl
    constructor
    · intro h2
      have h2' : a.mus = b.mus := (cmpList_eq_iff _ _).mp h2
      cases a
      cases b
      simp only at h1 h2'
      rw [h1, h2']
    · intro h
      cases h
      exact (cmpList_eq_iff _ _).mpr rfl
  | lt =>
    constructor
    · intro h; cases h
    · intro h
      cases h
      rw [(cmpList_eq_iff a.lits a.lits).mpr rfl] at hl
      cases hl
  | gt =>
    constructor
    · intro h; cases h
    · intro h
      cases h
      rw [(cmpList_eq_iff a.lits a.lits).mpr rfl] at hl
      cases hl

/-- `BTreeSet<MusContext>::insert` on the sorted-list model. -/
def btreeInsertMC (x : MusContext) : List MusContext → List MusContext
  | [] => [x]
  | y :: ys =>
    match cmpMC x y with
    | .lt => x :: y :: ys
    | .eq => y :: ys
    | .gt => y :: btreeInsertMC x ys

theorem mem_btreeInsertMC (x : MusContext) :
    ∀ (l : List MusContext) (a : MusContext),
      a ∈ btreeInsertMC x l ↔ a = x ∨ a ∈ l := by
  intro l
  induction l with
  | nil =>
    intro a
    simp [btreeInsertMC]
  | cons y ys ih =>
    intro a
    unfold btreeInsertMC
    cases hc : cmpMC x y with
    | lt => simp
    | eq =>
      have hxy : x = y := (cmpMC_eq_iff x y).mp hc
      subst hxy
      simp only [List.mem_cons]
      constructor
      · intro h
        rcases h with h | h
        · exact Or.inl h
        · exact Or.inr (Or.inr h)
      · intro h
        rcases h with h | h | h
        · exact Or.inl h
        · exact Or.inl h
        · exact Or.inr h
    | gt =>
      simp only [List.mem_cons, ih a]
      constructor
      · intro h
        rcases h with h | h | h
        · exact Or.inr (Or.inl h)
        · exact Or.inl h
        · exact Or.inr (Or.inr h)
      · intro h
        rcases h with h | h | h
        · exact Or.inr (Or.inl h)
        · exact Or.inl h
        · exact Or.inr (Or.inr h)

/-- `Iterator::min` over a list of sizes (`MusDict::min`'s final step). -/
def listMin? : List Nat → Option Nat
  | [] => none
  | x :: xs =>
    match listMin? xs with
    | none => some x
    | some m => some (min x m)

theorem listMin?_eq_none_iff (l : List Nat) : listMin? l = none ↔ l = [] := by
  cases l with
  | nil => simp [listMin?]
  | cons x xs =>
    simp only [listMin?]
    cases listMin? xs with
    | none =>
      constructor
      · intro h; cases h
      · intro h; cases h
    | some m =>
      constructor
      · intro h; cases h
      · intro h; cases h

theorem listMin?_eq_some_iff :
    ∀ (l : List Nat) (m : Nat),
      listMin? l = some m ↔ m ∈ l ∧ ∀ y ∈ l, m ≤ y := by
  intro l
  induction l with
  | nil =>
    intro m
    simp [listMin?]
  | cons x xs ih =>
    intro m
    simp only [listMin?]
    cases hxs : listMin? xs with
    | none =>
      have hnil : xs = [] := (listMin?_eq_none_iff xs).mp hxs
      subst hnil
      simp only [List.mem_singleton, List.mem_cons]
      constructor
      · intro h
        cases h
        exact ⟨Or.inl rfl, by
          intro y hy
          rcases hy with hy | hy
          · omega
          · cases hy⟩
      · rintro ⟨h1, -⟩
        rcases h1 with h1 | h1
        · rw [h1]
        · cases h1
    | some k =>
      obtain ⟨hkmem, hklb⟩ := (ih k).mp hxs
      constructor
      · intro h
        cases h
        constructor
        · by_cases hxk : x ≤ k
          · have : min x k = x := by omega
            rw [this]
            exact List.mem_cons_self x xs
          · have : min x k = k := by omega
            rw [this]
            exact List.mem_cons_of_mem x hkmem
        · intro y hy
          rcases List.mem_cons.mp hy with hy | hy
          · omega
          · have := hklb y hy
            omega
      · rintro ⟨h1, h2⟩
        have hmx : m ≤ x := h2 x (List.mem_cons_self x xs)
        have hmk : m ≤ k := h2 k (List.mem_cons_of_mem x hkmem)
        have hge : min x k ≤ m := by
          rcases List.mem_cons.mp h1 with h1 | h1
          · omega
          · have := hklb m h1
            omega
        have : m = min x k := by omega
        rw [this]

theorem listMin?_append_singleton :
    ∀ (l : List Nat) (x : Nat),
      listMin? (l ++ [x]) =
        some (match listMin? l with | none => x | some k => min k x) := by
  intro l
  induction l with
  | nil => intro x; simp [listMin?]
  | cons y ys ih =>
    intro x
    cases hys : listMin? ys with
    | none =>
      have hnil : ys = [] := (listMin?_eq_none_iff ys).mp hys
      subst hnil
      rfl
    | some k =>
      have h1 : listMin? ((y :: ys) ++ [x]) =
          match listMin? (ys ++ [x]) with
          | none => some y
          | some m => some (min y m) := rfl
      have h2 : listMin? (ys ++ [x]) = some (min k x) := by
        rw [ih x, hys]
      have h3 : listMin? (y :: ys) = some (min y k) := by
        have hh : listMin? (y :: ys) =
            match listMin? ys with
            | none => some y
            | some m => some (min y m) := rfl
        rw [hh, hys]
      rw [h1, h2, h3]
      exact congrArg some (by omega : min y (min k x) = min (min y k) x)

/-- The entry-update of `MusDict::add_mus` when a `BTreeSet<MusContext>`
for the literal already exists.  `len` is the `mus` size of the set's first
element, or `usize::MAX` when the set is empty; since any representable
`new_mus` has length below `usize::MAX` (and inserting into an empty set
yields the same singleton either way), the empty case replaces outright. -/
def addMusEntry (lit : Int) (newMus : List Int)
    (musList : List MusContext) : List MusContext :=
  match musList.head? with
  | none => [musContextNew lit newMus]
  | some mc0 =>
    if newMus.length < mc0.mus.length then [musContextNew lit newMus]
    else if newMus.length = mc0.mus.length then
      btreeInsertMC (musContextNew lit newMus) musList
    else musList

/-- `MusDict` as an association list with distinct keys;
`HashMap::get_mut` / `HashMap::insert` become in-place update / append. -/
def addMus : List (Int × List MusContext) → Int → List Int →
    List (Int × List MusContext)
  | [], lit, m => [(lit, [musContextNew lit m])]
  | e :: es, lit, m =>
    if e.1 = lit then (e.1, addMusEntry lit m e.2) :: es
    else e :: addMus es lit m

/-- `HashMap::get` for the association-list model. -/
def dictFind : List (Int × List MusContext) → Int → Option (List MusContext)
  | [], _ => none
  | e :: es, lit => if e.1 = lit then some e.2 else dictFind es lit

/-- `MusDict::min`: the minimum `mus` size over all stored contexts. -/
def musDictMin (d : List (Int × List MusContext)) : Option Nat :=
  listMin? (d.map (fun e => e.2.map (fun mc => mc.mus.length))).flatten

/-- A `MusDict` grown from the empty dictionary by a sequence of
`add_mus(lit, mus)` calls. -/
def buildMusDict (adds : List (Int × List Int)) :
    List (Int × List MusContext) :=
  adds.foldl (fun d p => addMus d p.1 p.2) []

/-- The muses added for a given literal, in call order. -/
def addsFor (adds : List (Int × List Int)) (lit : Int) : List (List Int) :=
  (adds.filter (fun p => decide (p.1 = lit))).map (fun p => p.2)

/-- The smallest size ever added for a given literal. -/
def minSizeFor (adds : List (Int × List Int)) (lit : Int) : Option Nat :=
  listMin? ((addsFor adds lit).map List.length)

theorem addMus_cons (e : Int × List MusContext)
    (es : List (Int × List MusContext)) (lit : Int) (m : List Int) :
    addMus (e :: es) lit m =
      if e.1 = lit then (e.1, addMusEntry lit m e.2) :: es
      else e :: addMus es lit m := rfl

theorem dictFind_cons (e : Int × List MusContext)
    (es : List (Int × List MusContext)) (lit : Int) :
    dictFind (e :: es) lit =
      if e.1 = lit then some e.2 else dictFind es lit := rfl

theorem dictFind_addMus_self (d : List (Int × List MusContext))
    (lit : Int) (m : List Int) :
    dictFind (addMus d lit m) lit =
      some (match dictFind d lit with
            | none => [musContextNew lit m]
            | some ml => addMusEntry lit m ml) := by
  induction d with
  | nil =>
    show dictFind [(lit, [musContextNew lit m])] lit = _
    rw [dictFind_cons]
    rw [if_pos rfl]
    rfl
  | cons e es ih =>
    by_cases h : e.1 = lit
    · rw [addMus_cons, if_pos h, dictFind_cons, dictFind_cons, if_pos h, if_pos h]
    · rw [addMus_cons, if_neg h, dictFind_cons, if_neg h,
        dictFind_cons e es lit, if_neg h]
      exact ih

theorem dictFind_addMus_other (d : List (Int × List MusContext))
    (lit lit' : Int) (m : List Int) (hne : lit' ≠ lit) :
    dictFind (addMus d lit m) lit' = dictFind d lit' := by
  induction d with
  | nil =>
    show dictFind [(lit, [musContextNew lit m])] lit' = dictFind [] lit'
    rw [dictFind_cons]
    rw [if_neg (fun h => hne h.symm)]
  | cons e es ih =>
    by_cases h : e.1 = lit
    · rw [addMus_cons, if_pos h]
      by_cases h2 : e.1 = lit'
      · exact absurd (h2.symm.trans h) hne
      · rw [dictFind_cons, if_neg h2, dictFind_cons e es lit', if_neg h2]
    · rw [addMus_cons, if_neg h]
      by_cases h2 : e.1 = lit'
      · rw [dictFind_cons, if_pos h2, dictFind_cons e es lit', if_pos h2]
      · rw [dictFind_cons, if_neg h2, dictFind_cons e es lit', if_neg h2]
        exact ih

theorem addsFor_append_self (adds : List (Int × List Int))
    (lit : Int) (m : List Int) :
    addsFor (adds ++ [(lit, m)]) lit = addsFor adds lit ++ [m] := by
  unfold addsFor
  rw [List.filter_append, List.map_append]
  have : List.filter (fun p => decide (p.1 = lit)) [(lit, m)] = [(lit, m)] := by
    simp [List.filter]
  rw [this]
  rfl

theorem addsFor_append_other (adds : List (Int × List Int))
    (lit lit' : Int) (m : List Int) (hne : lit' ≠ lit) :
    addsFor (adds ++ [(lit, m)]) lit' = addsFor adds lit' := by
  unfold addsFor
  rw [List.filter_append]
  have hd : decide (lit = lit') = false := decide_eq_false (fun h => hne h.symm)
  have : List.filter (fun p => decide (p.1 = lit')) [(lit, m)] = [] := by
    simp only [List.filter, hd]
  rw [this, List.append_nil]

theorem minSizeFor_append_self (adds : List (Int × List Int))
    (lit : Int) (m : List Int) :
    minSizeFor (adds ++ [(lit, m)]) lit =
      some (match minSizeFor adds lit with
            | none => m.length
            | some k => min k m.length) := by
  unfold minSizeFor
  rw [addsFor_append_self, List.map_append]
  exact listMin?_append_singleton _ _

theorem minSizeFor_append_other (adds : List (Int × List Int))
    (lit lit' : Int) (m : List Int) (hne : lit' ≠ lit) :
    minSizeFor (adds ++ [(lit, m)]) lit' = minSizeFor adds lit' := by
  unfold minSizeFor
  rw [addsFor_append_other adds lit lit' m hne]

theorem btreeInsertMC_ne_nil (x : MusContext) (l : List MusContext) :
    btreeInsertMC x l ≠ [] := by
  cases l with
  | nil => simp [btreeInsertMC]
  | cons y ys =>
    unfold btreeInsertMC
    cases cmpMC x y with
    | lt => simp
    | eq => simp
    | gt => simp

theorem mem_addsFor_iff (adds : List (Int × List Int)) (lit : Int)
    (mus : List Int) :
    mus ∈ addsFor adds lit ↔ ∃ p, p ∈ adds ∧ p.1 = lit ∧ p.2 = mus := by
  unfold addsFor
  rw [List.mem_map]
  constructor
  · rintro ⟨p, hp, hmus⟩
    obtain ⟨hpa, hplit⟩ := List.mem_filter.mp hp
    exact ⟨p, hpa, of_decide_eq_true hplit, hmus⟩
  · rintro ⟨p, hpa, hplit, hmus⟩
    exact ⟨p, List.mem_filter.mpr ⟨hpa, decide_eq_true hplit⟩, hmus⟩

theorem dictFind_some_mem :
    ∀ (d : List (Int × List MusContext)) (lit : Int) (ml : List MusContext),
      dictFind d lit = some ml → (lit, ml) ∈ d := by
  intro d
  induction d with
  | nil => intro lit ml h; cases h
  | cons e es ih =>
    intro lit ml h
    rw [dictFind_cons] at h
    by_cases he : e.1 = lit
    · rw [if_pos he] at h
      injection h with h2
      subst h2
      have he2 : (lit, e.2) = e := by
        calc (lit, e.2) = (e.1, e.2) := by rw [he]
          _ = e := rfl
      rw [he2]
      exact List.mem_cons_self _ _
    · rw [if_neg he] at h
      exact List.mem_cons_of_mem _ (ih lit ml h)

theorem mem_dict_dictFind :
    ∀ (d : List (Int × List MusContext)), (d.map Prod.fst).Nodup →
      ∀ (lit : Int) (ml : List MusContext),
        (lit, ml) ∈ d → dictFind d lit = some ml := by
  intro d
  induction d with
  | nil => intro _ lit ml h; cases h
  | cons e es ih =>
    intro hnd lit ml h
    rw [List.map_cons, List.nodup_cons] at hnd
    rw [dictFind_cons]
    rcases List.mem_cons.mp h with h1 | h1
    · rw [← h1]
      rw [if_pos rfl]
    · by_cases he : e.1 = lit
      · exfalso
        apply hnd.1
        rw [he]
        have hm : (lit, ml).1 ∈ es.map Prod.fst :=
          List.mem_map_of_mem Prod.fst h1
        exact hm
      · rw [if_neg he]
        exact ih hnd.2 lit ml h1

/-- The joint invariant of a `MusDict` built by a sequence of `add_mus`
calls `adds`: keys are distinct, an entry exists exactly for the literals
that received an add, every entry is nonempty, and an entry's contexts are
exactly the added muses of minimal size for that literal (each paired with
the singleton `lits = {lit}`). -/
def DictInv (adds : List (Int × List Int))
    (d : List (Int × List MusContext)) : Prop :=
  (d.map Prod.fst).Nodup ∧
  (∀ lit, dictFind d lit = none ↔ addsFor adds lit = []) ∧
  (∀ lit ml, dictFind d lit = some ml → ml ≠ [] ∧
    (∀ mc, mc ∈ ml ↔ (mc.lits = [lit] ∧ mc.mus ∈ addsFor adds lit ∧
      some mc.mus.length = minSizeFor adds lit)))

theorem addMus_keys (lit : Int) (m : List Int) :
    ∀ d : List (Int × List MusContext),
      (addMus d lit m).map Prod.fst =
        if dictFind d lit = none then d.map Prod.fst ++ [lit]
        else d.map Prod.fst := by
  intro d
  induction d with
  | nil => rfl
  | cons e es ih =>
    rw [addMus_cons, dictFind_cons]
    by_cases he : e.1 = lit
    · rw [if_pos he]
      have : (if (some e.2 = none) then (e :: es).map Prod.fst ++ [lit]
          else (e :: es).map Prod.fst) = (e :: es).map Prod.fst := by
        rw [if_neg (by simp)]
      rw [if_pos he, this]
      rfl
    · rw [if_neg he, if_neg he]
      rw [List.map_cons, List.map_cons, ih]
      by_cases hn : dictFind es lit = none
      · rw [if_pos hn, if_pos hn, List.cons_append]
      · rw [if_neg hn, if_neg hn]

theorem musContext_ext {mc : MusContext} {l m : List Int}
    (h1 : mc.lits = l) (h2 : mc.mus = m) : mc = ⟨l, m⟩ := by
  calc mc = ⟨mc.lits, mc.mus⟩ := rfl
    _ = ⟨l, m⟩ := by rw [h1, h2]

theorem dictInv_addMus {adds : List (Int × List Int)}
    {d : List (Int × List MusContext)} (h : DictInv adds d)
    (lit : Int) (m : List Int) :
    DictInv (adds ++ [(lit, m)]) (addMus d lit m) := by
  obtain ⟨hkeys, hnone, hsome⟩ := h
  refine ⟨?_, ?_, ?_⟩
  · rw [addMus_keys]
    by_cases hn : dictFind d lit = none
    · rw [if_pos hn]
      have hlit : lit ∉ d.map Prod.fst := by
        intro hmem
        obtain ⟨e, he, hfst⟩ := List.mem_map.mp hmem
        have hfind : dictFind d lit = some e.2 := by
          apply mem_dict_dictFind d hkeys
          have he2 : (lit, e.2) = e := by
            calc (lit, e.2) = (e.1, e.2) := by rw [hfst]
              _ = e := rfl
          rw [he2]
          exact he
        rw [hfind] at hn
        cases hn
      rw [List.nodup_append]
      refine ⟨hkeys, List.nodup_singleton lit, ?_⟩
      intro a ha hc
      rw [List.mem_singleton] at hc
      rw [hc] at ha
      exact hlit ha
    · rw [if_neg hn]
      exact hkeys
  · intro lit'
    by_cases hl : lit' = lit
    · subst hl
      rw [dictFind_addMus_self, addsFor_append_self]
      constructor
      · intro hc; cases hc
      · intro hc
        exact absurd hc (by simp)
    · rw [dictFind_addMus_other d lit lit' m hl,
        addsFor_append_other adds lit lit' m hl]
      exact hnone lit'
  · intro lit' ml hfind
    by_cases hl : lit' = lit
    · subst hl
      rw [dictFind_addMus_self] at hfind
      rw [addsFor_append_self, minSizeFor_append_self]
      cases hdf : dictFind d lit' with
      | none =>
        rw [hdf] at hfind
        have hml : ml = [musContextNew lit' m] := by
          injection hfind with h2
          rw [← h2]
        have hempty : addsFor adds lit' = [] := (hnone lit').mp hdf
        have hminnone : minSizeFor adds lit' = none := by
          unfold minSizeFor
          rw [hempty]
          rfl
        subst hml
        refine ⟨by simp, ?_⟩
        intro mc
        rw [hempty, hminnone]
        simp only [List.nil_append, List.mem_singleton]
        constructor
        · intro hmc
          subst hmc
          exact ⟨rfl, by rfl, by rfl⟩
        · rintro ⟨hlits, hmus, hlen⟩
          exact musContext_ext hlits hmus
      | some ml0 =>
        rw [hdf] at hfind
        obtain ⟨hne0, hchar0⟩ := hsome lit' ml0 hdf
        obtain ⟨mc0, rest0, hml0⟩ :
            ∃ mc0 rest0, ml0 = mc0 :: rest0 := by
          cases ml0 with
          | nil => exact absurd rfl hne0
          | cons a b => exact ⟨a, b, rfl⟩
        subst hml0
        have hmc0 : mc0 ∈ mc0 :: rest0 := List.mem_cons_self _ _
        obtain ⟨-, -, hlen0⟩ := (hchar0 mc0).mp hmc0
        have hminsome : minSizeFor adds lit' = some mc0.mus.length :=
          hlen0.symm
        have hml : ml = addMusEntry lit' m (mc0 :: rest0) := by
          injection hfind with h2
          rw [← h2]
        have hunfold : addMusEntry lit' m (mc0 :: rest0) =
            if m.length < mc0.mus.length then [musContextNew lit' m]
            else if m.length = mc0.mus.length then
              btreeInsertMC (musContextNew lit' m) (mc0 :: rest0)
            else (mc0 :: rest0) := rfl
        rw [hunfold] at hml
        rw [hminsome]
        have hlb0 : ∀ mus ∈ addsFor adds lit', mc0.mus.length ≤ mus.length := by
          intro mus hmus
          obtain ⟨-, hlb⟩ := (listMin?_eq_some_iff
            ((addsFor adds lit').map List.length) mc0.mus.length).mp
            hminsome
          exact hlb _ (List.mem_map_of_mem List.length hmus)
        by_cases hle : m.length < mc0.mus.length
        · rw [if_pos hle] at hml
          subst hml
          refine ⟨by simp, ?_⟩
          intro mc
          have hminval : min mc0.mus.length m.length = m.length := by omega
          simp only [hminval, List.mem_singleton]
          constructor
          · intro hmc
            subst hmc
            exact ⟨rfl, List.mem_append_right _
              (List.mem_singleton.mpr (by rfl)), by rfl⟩
          · rintro ⟨hlits, hmus, hlen⟩
            rcases List.mem_append.mp hmus with hm1 | hm1
            · exfalso
              have hge : mc0.mus.length ≤ mc.mus.length := hlb0 _ hm1
              have heqlen : mc.mus.length = m.length := by
                injection hlen
              omega
            · have hm : mc.mus = m := List.mem_singleton.mp hm1
              exact musContext_ext hlits hm
        · by_cases heq : m.length = mc0.mus.length
          · rw [if_neg hle, if_pos heq] at hml
            subst hml
            refine ⟨btreeInsertMC_ne_nil _ _, ?_⟩
            intro mc
            rw [mem_btreeInsertMC]
            have hminval : min mc0.mus.length m.length = mc0.mus.length := by
              omega
            simp only [hminval]
            constructor
            · intro hmc
              rcases hmc with hmc | hmc
              · subst hmc
                refine ⟨rfl, List.mem_append_right _
                  (List.mem_singleton.mpr (by rfl)), ?_⟩
                show some m.length = some mc0.mus.length
                rw [heq]
              · obtain ⟨hlits, hmus, hlen⟩ := (hchar0 mc).mp hmc
                rw [hminsome] at hlen
                exact ⟨hlits, List.mem_append_left _ hmus, hlen⟩
            · rintro ⟨hlits, hmus, hlen⟩
              rcases List.mem_append.mp hmus with hm1 | hm1
              · right
                apply (hchar0 mc).mpr
                rw [hminsome]
                exact ⟨hlits, hm1, hlen⟩
              · left
                have hm : mc.mus = m := List.mem_singleton.mp hm1
                exact musContext_ext hlits hm
          · have hgt : mc0.mus.length < m.length := by omega
            rw [if_neg hle, if_neg heq] at hml
            subst hml
            refine ⟨hne0, ?_⟩
            intro mc
            have hminval : min mc0.mus.length m.length = mc0.mus.length := by
              omega
            simp only [hminval]
            constructor
            · intro hmc
              obtain ⟨hlits, hmus, hlen⟩ := (hchar0 mc).mp hmc
              rw [hminsome] at hlen
              exact ⟨hlits, List.mem_append_left _ hmus, hlen⟩
            · rintro ⟨hlits, hmus, hlen⟩
              rcases List.mem_append.mp hmus with hm1 | hm1
              · apply (hchar0 mc).mpr
                rw [hminsome]
                exact ⟨hlits, hm1, hlen⟩
              · exfalso
                have hm : mc.mus = m := List.mem_singleton.mp hm1
                have heqlen : mc.mus.length = mc0.mus.length := by
                  injection hlen
                rw [hm] at heqlen
                omega
    · rw [dictFind_addMus_other d lit lit' m hl] at hfind
      rw [addsFor_append_other adds lit lit' m hl,
        minSizeFor_append_other adds lit lit' m hl]
      exact hsome lit' ml hfind

theorem dictInv_nil : DictInv [] [] := by
  refine ⟨List.nodup_nil, ?_, ?_⟩
  · intro lit
    constructor
    · intro _; rfl
    · intro _; rfl
  · intro lit ml h
    cases h

theorem dictInv_foldl :
    ∀ (rest done : List (Int × List Int)) (d : List (Int × List MusContext)),
      DictInv done d →
      DictInv (done ++ rest) (rest.foldl (fun d p => addMus d p.1 p.2) d) := by
  intro rest
  induction rest with
  | nil =>
    intro done d h
    rw [List.append_nil]
    exact h
  | cons p ps ih =>
    intro done d h
    have hstep := dictInv_addMus h p.1 p.2
    have hp : (p.1, p.2) = p := rfl
    rw [hp] at hstep
    have hres := ih (done ++ [p]) (addMus d p.1 p.2) hstep
    rw [List.append_assoc] at hres
    exact hres

theorem dictInv_buildMusDict (adds : List (Int × List Int)) :
    DictInv adds (buildMusDict adds) := by
  have h := dictInv_foldl adds [] [] dictInv_nil
  rw [List.nil_append] at h
  exact h

theorem musDictMin_buildMusDict (adds : List (Int × List Int)) :
    musDictMin (buildMusDict adds) =
      listMin? (adds.map (fun p => p.2.length)) := by
  obtain ⟨hkeys, hnone, hsome⟩ := dictInv_buildMusDict adds
  cases hLa : listMin? (adds.map (fun p => p.2.length)) with
  | none =>
    have hmap : adds.map (fun p => p.2.length) = [] :=
      (listMin?_eq_none_iff _).mp hLa
    have hadds : adds = [] := List.map_eq_nil_iff.mp hmap
    subst hadds
    rfl
  | some k =>
    obtain ⟨hkmem, hklb⟩ := (listMin?_eq_some_iff _ _).mp hLa
    obtain ⟨p, hpmem, hplen⟩ := List.mem_map.mp hkmem
    show listMin?
      ((buildMusDict adds).map (fun e => e.2.map (fun mc => mc.mus.length))).flatten
      = some k
    apply (listMin?_eq_some_iff _ _).mpr
    constructor
    · have hmus : p.2 ∈ addsFor adds p.1 :=
        (mem_addsFor_iff _ _ _).mpr ⟨p, hpmem, rfl, rfl⟩
      have hne : addsFor adds p.1 ≠ [] := by
        intro hc
        rw [hc] at hmus
        cases hmus
      cases hdf : dictFind (buildMusDict adds) p.1 with
      | none => exact absurd ((hnone p.1).mp hdf) hne
      | some ml =>
        obtain ⟨hmlne, hchar⟩ := hsome p.1 ml hdf
        obtain ⟨mc0, rest0, hml0⟩ : ∃ a b, ml = a :: b := by
          cases ml with
          | nil => exact absurd rfl hmlne
          | cons a b => exact ⟨a, b, rfl⟩
        have hmc0 : mc0 ∈ ml := by
          rw [hml0]
          exact List.mem_cons_self _ _
        obtain ⟨-, hmus0, hlen0⟩ := (hchar mc0).mp hmc0
        have hmin : minSizeFor adds p.1 = some mc0.mus.length := hlen0.symm
        obtain ⟨hminmem, hminlb⟩ := (listMin?_eq_some_iff _ _).mp hmin
        have hle1 : mc0.mus.length ≤ k := by
          have hx := hminlb p.2.length (List.mem_map_of_mem List.length hmus)
          omega
        have hle2 : k ≤ mc0.mus.length := by
          obtain ⟨mus, hmusmem, hmuslen⟩ := List.mem_map.mp hminmem
          obtain ⟨q, hq, hq1, hq2⟩ := (mem_addsFor_iff _ _ _).mp hmusmem
          have hqmem : q.2.length ∈ adds.map (fun p => p.2.length) :=
            List.mem_map_of_mem _ hq
          have := hklb _ hqmem
          rw [hq2, hmuslen] at this
          exact this
        have hkeq : mc0.mus.length = k := by omega
        apply List.mem_flatten.mpr
        refine ⟨ml.map (fun mc => mc.mus.length), ?_, ?_⟩
        · have hdm : (p.1, ml) ∈ buildMusDict adds :=
            dictFind_some_mem _ p.1 ml hdf
          have := List.mem_map_of_mem
            (fun e : Int × List MusContext => e.2.map (fun mc => mc.mus.length))
            hdm
          exact this
        · rw [← hkeq]
          exact List.mem_map_of_mem _ hmc0
    · intro y hy
      obtain ⟨sizes, hsizes, hysz⟩ := List.mem_flatten.mp hy
      obtain ⟨e, hed, hemap⟩ := List.mem_map.mp hsizes
      rw [← hemap] at hysz
      obtain ⟨mc, hmcmem, hmclen⟩ := List.mem_map.mp hysz
      have hfind : dictFind (buildMusDict adds) e.1 = some e.2 := by
        apply mem_dict_dictFind _ hkeys
        have he : (e.1, e.2) = e := rfl
        rw [he]
        exact hed
      obtain ⟨-, hchar⟩ := hsome e.1 e.2 hfind
      obtain ⟨-, hmus, -⟩ := (hchar mc).mp hmcmem
      obtain ⟨q, hq, hq1, hq2⟩ := (mem_addsFor_iff _ _ _).mp hmus
      have hqmem : q.2.length ∈ adds.map (fun p => p.2.length) :=
        List.mem_map_of_mem _ hq
      have := hklb _ hqmem
      rw [hq2, hmclen] at this
      exact this

/-- **C7.**  For every literal and every sequence of `add_mus` calls
(starting from the empty dictionary): an entry exists exactly for the
literals that received an add; the contexts stored for a literal are
exactly the added muses of minimal size for it (a strictly smaller MUS
replaced all previously stored ones, an equal-size MUS was inserted
alongside, a larger one was discarded), each carrying `lits = {lit}`; in
particular all stored MUSes for a literal have the same size, the smallest
ever added for it; and `min()` returns the smallest stored size over the
whole dictionary, which equals the smallest size ever added. -/
theorem mus_dict_add_mus_spec (adds : List (Int × List Int)) :
    (∀ lit, dictFind (buildMusDict adds) lit = none ↔ addsFor adds lit = []) ∧
    (∀ lit ml, dictFind (buildMusDict adds) lit = some ml → ml ≠ [] ∧
      ∀ mc, mc ∈ ml ↔ (mc.lits = [lit] ∧ mc.mus ∈ addsFor adds lit ∧
        some mc.mus.length = minSizeFor adds lit)) ∧
    musDictMin (buildMusDict adds) =
      listMin? (adds.map (fun p => p.2.length)) := by
  obtain ⟨h1, h2, h3⟩ := dictInv_buildMusDict adds
  exact ⟨h2, h3, musDictMin_buildMusDict adds⟩

/-- Witness for C7 at a concrete call sequence
`add_mus(1, {7,8}); add_mus(1, {9}); add_mus(2, {4,5})`: the entry for
literal `1` is the singleton `{⟨{1}, {9}⟩}` — the size-2 MUS was replaced by
the smaller size-1 one — and its characterization holds. -/
theorem mus_dict_add_mus_spec_witness :
    [musContextNew 1 [9]] ≠ [] ∧
    ∀ mc, mc ∈ [musContextNew 1 [9]] ↔
      (mc.lits = [1] ∧
       mc.mus ∈ addsFor [((1 : Int), [(7 : Int), 8]), (1, [9]), (2, [4, 5])] 1 ∧
       some mc.mus.length =
         minSizeFor [((1 : Int), [(7 : Int), 8]), (1, [9]), (2, [4, 5])] 1) :=
  (mus_dict_add_mus_spec [((1 : Int), [(7 : Int), 8]), (1, [9]), (2, [4, 5])]).2.1
    1 [musContextNew 1 [9]] (by rfl)

/-! ## `merge_muscontexts` (demystify-lib/src/problem/musdict.rs,
lines 149-163)

```rust
pub fn merge_muscontexts(v: &[MusContext]) -> Vec<MusContext> {
    let mut mus_map: BTreeMap<&BTreeSet<Lit>, BTreeSet<Lit>> = BTreeMap::new();
    for mc in v {
        mus_map.entry(&mc.mus).or_default().extend(&mc.lits);
    }
    mus_map.into_iter()
        .map(|(mus, lits)| MusContext::new_multi_lit(lits, mus.clone()))
        .collect()
}
```

The `BTreeMap` keyed by the `mus` set is modelled as an association list
sorted strictly ascending by `cmpList` on the key;
`entry(..).or_default().extend(..)` becomes `mapExtend`. -/

theorem cmpInt_lt_iff (a b : Int) : cmpInt a b = .lt ↔ a < b := by
  unfold cmpInt
  by_cases h1 : a < b
  · simp [h1]
  · by_cases h2 : b < a
    · simp only [if_neg h1, if_pos h2]
      constructor
      · intro h; cases h
      · intro h; omega
    · simp only [if_neg h1, if_neg h2]
      constructor
      · intro h; cases h
      · intro h; omega

theorem cmpInt_gt_iff (a b : Int) : cmpInt a b = .gt ↔ b < a := by
  unfold cmpInt
  by_cases h1 : a < b
  · simp only [if_pos h1]
    constructor
    · intro h; cases h
    · intro h; omega
  · by_cases h2 : b < a
    · simp [h1, h2]
    · simp only [if_neg h1, if_neg h2]
      constructor
      · intro h; cases h
      · intro h; omega

theorem cmpList_gt_iff_lt : ∀ a b : List Int,
    cmpList a b = .gt ↔ cmpList b a = .lt := by
  intro a
  induction a with
  | nil =>
    intro b
    cases b with
    | nil =>
      constructor
      · intro h; cases h
      · intro h; cases h
    | cons y ys =>
      constructor
      · intro h; cases h
      · intro h; cases h
  | cons x xs ih =>
    intro b
    cases b with
    | nil =>
      constructor
      · intro _; rfl
      · intro _; rfl
    | cons y ys =>
      show (match cmpInt x y with
            | .eq => cmpList xs ys
            | o => o) = .gt ↔
           (match cmpInt y x with
            | .eq => cmpList ys xs
            | o => o) = .lt
      cases hc : cmpInt x y with
      | lt =>
        have hyx : cmpInt y x = .gt := by
          rw [cmpInt_gt_iff]
          exact (cmpInt_lt_iff x y).mp hc
        rw [hyx]
        constructor
        · intro h; cases h
        · intro h; cases h
      | eq =>
        have hxy : x = y := (cmpInt_eq_iff x y).mp hc
        have hyx : cmpInt y x = .eq := (cmpInt_eq_iff y x).mpr hxy.symm
        rw [hyx]
        exact ih ys
      | gt =>
        have hyx : cmpInt y x = .lt := by
          rw [cmpInt_lt_iff]
          exact (cmpInt_gt_iff x y).mp hc
        rw [hyx]
        constructor
        · intro _; rfl
        · intro _; rfl

theorem cmpList_lt_trans : ∀ a b c : List Int,
    cmpList a b = .lt → cmpList b c = .lt → cmpList a c = .lt := by
  intro a
  induction a with
  | nil =>
    intro b c hab hbc
    cases b with
    | nil => cases hab
    | cons y ys =>
      cases c with
      | nil => cases hbc
      | cons z zs => rfl
  | cons x xs ih =>
    intro b c hab hbc
    cases b with
    | nil => cases hab
    | cons y ys =>
      cases c with
      | nil => cases hbc
      | cons z zs =>
        show (match cmpInt x z with
              | .eq => cmpList xs zs
              | o => o) = .lt
        have hab' : (match cmpInt x y with
            | .eq => cmpList xs ys
            | o => o) = .lt := hab
        have hbc' : (match cmpInt y z with
            | .eq => cmpList ys zs
            | o => o) = .lt := hbc
        cases hxy : cmpInt x y with
        | gt => rw [hxy] at hab'; cases hab'
        | lt =>
          have h1 : x < y := (cmpInt_lt_iff x y).mp hxy
          cases hyz : cmpInt y z with
          | gt => rw [hyz] at hbc'; cases hbc'
          | lt =>
            have h2 : y < z := (cmpInt_lt_iff y z).mp hyz
            rw [(cmpInt_lt_iff x z).mpr (by omega)]
          | eq =>
            have h2 : y = z := (cmpInt_eq_iff y z).mp hyz
            rw [(cmpInt_lt_iff x z).mpr (by omega)]
        | eq =>
          have h1 : x = y := (cmpInt_eq_iff x y).mp hxy
          rw [hxy] at hab'
          cases hyz : cmpInt y z with
          | gt => rw [hyz] at hbc'; cases hbc'
          | lt =>
            have h2 : y < z := (cmpInt_lt_iff y z).mp hyz
            rw [(cmpInt_lt_iff x z).mpr (by omega)]
          | eq =>
            have h2 : y = z := (cmpInt_eq_iff y z).mp hyz
            rw [hyz] at hbc'
            rw [(cmpInt_eq_iff x z).mpr (by omega)]
            exact ih ys zs hab' hbc'

theorem cmpList_lt_ne {a b : List Int} (h : cmpList a b = .lt) : a ≠ b := by
  intro hc
  rw [(cmpList_eq_iff a b).mpr hc] at h
  cases h

/-- `BTreeSet<Lit>::insert` on the sorted-list model. -/
def insertSortedInt (x : Int) : List Int → List Int
  | [] => [x]
  | y :: ys =>
    match cmpInt x y with
    | .lt => x :: y :: ys
    | .eq => y :: ys
    | .gt => y :: insertSortedInt x ys

/-- `BTreeSet<Lit>::extend`: insert every element of `src`, in order. -/
def extendSorted (dst src : List Int) : List Int :=
  src.foldl (fun acc x => insertSortedInt x acc) dst

theorem mem_insertSortedInt (x : Int) :
    ∀ (l : List Int) (a : Int), a ∈ insertSortedInt x l ↔ a = x ∨ a ∈ l := by
  intro l
  induction l with
  | nil =>
    intro a
    simp [insertSortedInt]
  | cons y ys ih =>
    intro a
    unfold insertSortedInt
    cases hc : cmpInt x y with
    | lt => simp
    | eq =>
      have hxy : x = y := (cmpInt_eq_iff x y).mp hc
      subst hxy
      simp only [List.mem_cons]
      constructor
      · intro h
        rcases h with h | h
        · exact Or.inl h
        · exact Or.inr (Or.inr h)
      · intro h
        rcases h with h | h | h
        · exact Or.inl h
        · exact Or.inl h
        · exact Or.inr h
    | gt =>
      simp only [List.mem_cons, ih a]
      constructor
      · intro h
        rcases h with h | h | h
        · exact Or.inr (Or.inl h)
        · exact Or.inl h
        · exact Or.inr (Or.inr h)
      · intro h
        rcases h with h | h | h
        · exact Or.inr (Or.inl h)
        · exact Or.inl h
        · exact Or.inr (Or.inr h)

theorem pairwise_insertSortedInt (x : Int) :
    ∀ l : List Int, l.Pairwise (· < ·) →
      (insertSortedInt x l).Pairwise (· < ·) := by
  intro l
  induction l with
  | nil =>
    intro _
    simp [insertSortedInt]
  | cons y ys ih =>
    intro h
    rw [List.pairwise_cons] at h
    unfold insertSortedInt
    cases hc : cmpInt x y with
    | lt =>
      have hxy : x < y := (cmpInt_lt_iff x y).mp hc
      rw [List.pairwise_cons]
      refine ⟨?_, List.pairwise_cons.mpr h⟩
      intro b hb
      rcases List.mem_cons.mp hb with hb | hb
      · omega
      · have := h.1 b hb
        omega
    | eq => exact List.pairwise_cons.mpr h
    | gt =>
      have hxy : y < x := (cmpInt_gt_iff x y).mp hc
      rw [List.pairwise_cons]
      refine ⟨?_, ih h.2⟩
      intro b hb
      rcases (mem_insertSortedInt x ys b).mp hb with hb | hb
      · omega
      · exact h.1 b hb

theorem mem_extendSorted :
    ∀ (src dst : List Int) (a : Int),
      a ∈ extendSorted dst src ↔ a ∈ dst ∨ a ∈ src := by
  intro src
  induction src with
  | nil =>
    intro dst a
    simp [extendSorted]
  | cons s ss ih =>
    intro dst a
    show a ∈ extendSorted (insertSortedInt s dst) ss ↔ _
    rw [ih (insertSortedInt s dst) a, mem_insertSortedInt]
    simp only [List.mem_cons]
    constructor
    · intro h
      rcases h with (h | h) | h
      · exact Or.inr (Or.inl h)
      · exact Or.inl h
      · exact Or.inr (Or.inr h)
    · intro h
      rcases h with h | h | h
      · exact Or.inl (Or.inr h)
      · exact Or.inl (Or.inl h)
      · exact Or.inr h

theorem pairwise_extendSorted :
    ∀ (src dst : List Int), dst.Pairwise (· < ·) →
      (extendSorted dst src).Pairwise (· < ·) := by
  intro src
  induction src with
  | nil =>
    intro dst h
    exact h
  | cons s ss ih =>
    intro dst h
    exact ih (insertSortedInt s dst) (pairwise_insertSortedInt s dst h)

/-- Two strictly sorted integer lists with the same members are equal. -/
theorem pairwiseLt_eq_of_mem_iff :
    ∀ {u w : List Int}, u.Pairwise (· < ·) → w.Pairwise (· < ·) →
      (∀ a, a ∈ u ↔ a ∈ w) → u = w := by
  intro u
  induction u with
  | nil =>
    intro w _ _ hmem
    cases w with
    | nil => rfl
    | cons y ys =>
      exact absurd ((hmem y).mpr (List.mem_cons_self y ys)) (List.not_mem_nil y)
  | cons x xs ih =>
    intro w hu hw hmem
    cases w with
    | nil =>
      exact absurd ((hmem x).mp (List.mem_cons_self x xs)) (List.not_mem_nil x)
    | cons y ys =>
      rw [List.pairwise_cons] at hu hw
      have hxy : x = y := by
        have hx : x ∈ y :: ys := (hmem x).mp (List.mem_cons_self x xs)
        have hy : y ∈ x :: xs := (hmem y).mpr (List.mem_cons_self y ys)
        rcases List.mem_cons.mp hx with h1 | h1
        · exact h1
        · rcases List.mem_cons.mp hy with h2 | h2
          · exact h2.symm
          · have := hw.1 x h1
            have := hu.1 y h2
            omega
      subst hxy
      have htail : ∀ a, a ∈ xs ↔ a ∈ ys := by
        intro a
        constructor
        · intro ha
          have hax : x < a := hu.1 a ha
          have : a ∈ x :: ys := (hmem a).mp (List.mem_cons_of_mem x ha)
          rcases List.mem_cons.mp this with h1 | h1
          · omega
          · exact h1
        · intro ha
          have hax : x < a := hw.1 a ha
          have : a ∈ x :: xs := (hmem a).mpr (List.mem_cons_of_mem x ha)
          rcases List.mem_cons.mp this with h1 | h1
          · omega
          · exact h1
      rw [ih hu.2 hw.2 htail]

/-- `mus_map.entry(&mc.mus).or_default().extend(&mc.lits)` on the sorted
association-list model of the `BTreeMap`. -/
def mapExtend : List (List Int × List Int) → List Int → List Int →
    List (List Int × List Int)
  | [], k, ls => [(k, extendSorted [] ls)]
  | (k0, v0) :: rest, k, ls =>
    match cmpList k k0 with
    | .lt => (k, extendSorted [] ls) :: (k0, v0) :: rest
    | .eq => (k0, extendSorted v0 ls) :: rest
    | .gt => (k0, v0) :: mapExtend rest k ls

/-- `merge_muscontexts`: group the contexts by `mus`, unioning `lits`, and
rebuild one context per distinct `mus` in key order
(`MusContext::new_multi_lit(lits, mus)`). -/
def mergeMuscontexts (v : List MusContext) : List MusContext :=
  (v.foldl (fun m mc => mapExtend m mc.mus mc.lits) []).map
    (fun p => MusContext.mk p.2 p.1)

theorem mem_keys_mapExtend :
    ∀ (m : List (List Int × List Int)) (k ls : List Int) (k' : List Int),
      k' ∈ (mapExtend m k ls).map Prod.fst ↔
        k' = k ∨ k' ∈ m.map Prod.fst := by
  intro m
  induction m with
  | nil =>
    intro k ls k'
    simp [mapExtend]
  | cons e rest ih =>
    intro k ls k'
    obtain ⟨k0, v0⟩ := e
    show k' ∈ (List.map Prod.fst
        (match cmpList k k0 with
         | .lt => (k, extendSorted [] ls) :: (k0, v0) :: rest
         | .eq => (k0, extendSorted v0 ls) :: rest
         | .gt => (k0, v0) :: mapExtend rest k ls)) ↔ _
    cases hc : cmpList k k0 with
    | lt => simp
    | eq =>
      have hk : k = k0 := (cmpList_eq_iff k k0).mp hc
      subst hk
      simp only [List.map_cons, List.mem_cons]
      constructor
      · intro h
        rcases h with h | h
        · exact Or.inl h
        · exact Or.inr (Or.inr h)
      · intro h
        rcases h with h | h | h
        · exact Or.inl h
        · exact Or.inl h
        · exact Or.inr h
    | gt =>
      simp only [List.map_cons, List.mem_cons, ih k ls k']
      constructor
      · intro h
        rcases h with h | h | h
        · exact Or.inr (Or.inl h)
        · exact Or.inl h
        · exact Or.inr (Or.inr h)
      · intro h
        rcases h with h | h | h
        · exact Or.inr (Or.inl h)
        · exact Or.inl h
        · exact Or.inr (Or.inr h)

/-- Keys of the group map stay strictly sorted under `mapExtend`. -/
theorem pairwise_keys_mapExtend :
    ∀ (m : List (List Int × List Int)) (k ls : List Int),
      m.Pairwise (fun a b => cmpList a.1 b.1 = .lt) →
      (mapExtend m k ls).Pairwise (fun a b => cmpList a.1 b.1 = .lt) := by
  intro m
  induction m with
  | nil =>
    intro k ls _
    simp [mapExtend]
  | cons e rest ih =>
    intro k ls h
    obtain ⟨k0, v0⟩ := e
    rw [List.pairwise_cons] at h
    show List.Pairwise _
        (match cmpList k k0 with
         | .lt => (k, extendSorted [] ls) :: (k0, v0) :: rest
         | .eq => (k0, extendSorted v0 ls) :: rest
         | .gt => (k0, v0) :: mapExtend rest k ls)
    cases hc : cmpList k k0 with
    | lt =>
      rw [List.pairwise_cons]
      refine ⟨?_, List.pairwise_cons.mpr h⟩
      intro b hb
      rcases List.mem_cons.mp hb with hb | hb
      · rw [hb]
        exact hc
      · exact cmpList_lt_trans _ _ _ hc (h.1 b hb)
    | eq =>
      rw [List.pairwise_cons]
      exact ⟨fun b hb => h.1 b hb, h.2⟩
    | gt =>
      rw [List.pairwise_cons]
      refine ⟨?_, ih k ls h.2⟩
      intro b hb
      have hbk := List.mem_map_of_mem Prod.fst hb
      rcases (mem_keys_mapExtend rest k ls b.1).mp hbk with hb1 | hb1
      · rw [hb1]
        exact (cmpList_gt_iff_lt k k0).mp hc
      · obtain ⟨e2, he2, he2f⟩ := List.mem_map.mp hb1
        have := h.1 e2 he2
        rw [he2f] at this
        exact this

/-- Values of the group map stay strictly sorted under `mapExtend`. -/
theorem pairwise_values_mapExtend :
    ∀ (m : List (List Int × List Int)) (k ls : List Int),
      (∀ e ∈ m, e.2.Pairwise (· < ·)) →
      ∀ e ∈ mapExtend m k ls, e.2.Pairwise (· < ·) := by
  intro m
  induction m with
  | nil =>
    intro k ls _ e he
    rcases List.mem_singleton.mp he with he
    rw [he]
    exact pairwise_extendSorted ls [] List.Pairwise.nil
  | cons e0 rest ih =>
    intro k ls h e he
    obtain ⟨k0, v0⟩ := e0
    have hmatch : e ∈ (match cmpList k k0 with
         | Ordering.lt => (k, extendSorted [] ls) :: (k0, v0) :: rest
         | Ordering.eq => (k0, extendSorted v0 ls) :: rest
         | Ordering.gt => (k0, v0) :: mapExtend rest k ls) := he
    cases hc : cmpList k k0 with
    | lt =>
      rw [hc] at hmatch
      rcases List.mem_cons.mp hmatch with h1 | h1
      · rw [h1]
        exact pairwise_extendSorted ls [] List.Pairwise.nil
      · exact h e h1
    | eq =>
      rw [hc] at hmatch
      rcases List.mem_cons.mp hmatch with h1 | h1
      · rw [h1]
        exact pairwise_extendSorted ls v0 (h (k0, v0) (List.mem_cons_self _ _))
      · exact h e (List.mem_cons_of_mem _ h1)
    | gt =>
      rw [hc] at hmatch
      rcases List.mem_cons.mp hmatch with h1 | h1
      · rw [h1]
        exact h (k0, v0) (List.mem_cons_self _ _)
      · exact ih k ls (fun e2 he2 => h e2 (List.mem_cons_of_mem _ he2)) e h1

/-- Entry characterization of `mapExtend`: the entry for `k` holds the old
entry's members plus `ls`; every other entry is untouched. -/
theorem mapExtend_entry_charac :
    ∀ (m : List (List Int × List Int)) (k ls : List Int),
      m.Pairwise (fun a b => cmpList a.1 b.1 = .lt) →
      ∀ e ∈ mapExtend m k ls,
        (e.1 = k ∧ ∀ a, a ∈ e.2 ↔ ((∃ v, (k, v) ∈ m ∧ a ∈ v) ∨ a ∈ ls)) ∨
        (e ∈ m ∧ e.1 ≠ k) := by
  intro m
  induction m with
  | nil =>
    intro k ls _ e he
    rcases List.mem_singleton.mp he with he
    subst he
    left
    refine ⟨rfl, ?_⟩
    intro a
    rw [mem_extendSorted]
    constructor
    · intro h
      rcases h with h | h
      · cases h
      · exact Or.inr h
    · intro h
      rcases h with ⟨v, hv, -⟩ | h
      · cases hv
      · exact Or.inr h
  | cons e0 rest ih =>
    intro k ls hpw e he
    obtain ⟨k0, v0⟩ := e0
    rw [List.pairwise_cons] at hpw
    have hmatch : e ∈ (match cmpList k k0 with
         | Ordering.lt => (k, extendSorted [] ls) :: (k0, v0) :: rest
         | Ordering.eq => (k0, extendSorted v0 ls) :: rest
         | Ordering.gt => (k0, v0) :: mapExtend rest k ls) := he
    have hknotin : ∀ v, cmpList k k0 = .lt ∨ cmpList k k0 = .eq →
        ¬ ((k, v) ∈ rest) := by
      intro v hor hmem
      have := hpw.1 (k, v) hmem
      rcases hor with hor | hor
      · have htr := cmpList_lt_trans k k0 k hor this
        exact cmpList_lt_ne htr rfl
      · have hk : k = k0 := (cmpList_eq_iff k k0).mp hor
        subst hk
        exact cmpList_lt_ne this rfl
    cases hc : cmpList k k0 with
    | lt =>
      rw [hc] at hmatch
      have hne0 : k ≠ k0 := cmpList_lt_ne hc
      rcases List.mem_cons.mp hmatch with h1 | h1
      · subst h1
        left
        refine ⟨rfl, ?_⟩
        intro a
        rw [mem_extendSorted]
        constructor
        · intro h
          rcases h with h | h
          · cases h
          · exact Or.inr h
        · intro h
          rcases h with ⟨v, hv, hav⟩ | h
          · rcases List.mem_cons.mp hv with h2 | h2
            · exact absurd (congrArg Prod.fst h2) hne0
            · exact absurd h2 (hknotin v (Or.inl hc))
          · exact Or.inr h
      · right
        refine ⟨h1, ?_⟩
        intro hek
        rcases List.mem_cons.mp h1 with h2 | h2
        · rw [h2] at hek
          exact hne0 hek.symm
        · have := hpw.1 e h2
          have htr := cmpList_lt_trans k k0 e.1 hc this
          rw [hek] at htr
          exact cmpList_lt_ne htr rfl
    | eq =>
      rw [hc] at hmatch
      have hk : k = k0 := (cmpList_eq_iff k k0).mp hc
      rcases List.mem_cons.mp hmatch with h1 | h1
      · subst h1
        left
        refine ⟨hk.symm, ?_⟩
        intro a
        rw [mem_extendSorted]
        constructor
        · intro h
          rcases h with h | h
          · exact Or.inl ⟨v0, by rw [hk]; exact List.mem_cons_self _ _, h⟩
          · exact Or.inr h
        · intro h
          rcases h with ⟨v, hv, hav⟩ | h
          · rcases List.mem_cons.mp hv with h2 | h2
            · have : v = v0 := congrArg Prod.snd h2
              rw [this] at hav
              exact Or.inl hav
            · exact absurd h2 (hknotin v (Or.inr hc))
          · exact Or.inr h
      · right
        refine ⟨List.mem_cons_of_mem _ h1, ?_⟩
        intro hek
        have := hpw.1 e h1
        rw [hek, ← hk] at this
        exact cmpList_lt_ne this rfl
    | gt =>
      rw [hc] at hmatch
      have hk0k : cmpList k0 k = .lt := (cmpList_gt_iff_lt k k0).mp hc
      rcases List.mem_cons.mp hmatch with h1 | h1
      · subst h1
        right
        refine ⟨List.mem_cons_self _ _, ?_⟩
        intro hek
        rw [show ((k0, v0) : List Int × List Int).1 = k0 from rfl] at hek
        rw [hek] at hk0k
        exact cmpList_lt_ne hk0k rfl
      · rcases ih k ls hpw.2 e h1 with ⟨hek, hchar⟩ | ⟨hem, hek⟩
        · left
          refine ⟨hek, ?_⟩
          intro a
          rw [hchar a]
          constructor
          · intro h
            rcases h with ⟨v, hv, hav⟩ | h
            · exact Or.inl ⟨v, List.mem_cons_of_mem _ hv, hav⟩
            · exact Or.inr h
          · intro h
            rcases h with ⟨v, hv, hav⟩ | h
            · rcases List.mem_cons.mp hv with h2 | h2
              · exfalso
                have : k = k0 := congrArg Prod.fst h2
                rw [this] at hc
                rw [(cmpList_eq_iff k0 k0).mpr rfl] at hc
                cases hc
              · exact Or.inl ⟨v, h2, hav⟩
            · exact Or.inr h
        · exact Or.inr ⟨List.mem_cons_of_mem _ hem, hek⟩

/-- Invariant of the grouping fold of `merge_muscontexts`: the map is
key-sorted with sorted values, its keys are exactly the `mus` values seen
so far, and each entry's value holds exactly the literals of the contexts
seen so far with that `mus`. -/
def MergedInv (done : List MusContext)
    (m : List (List Int × List Int)) : Prop :=
  m.Pairwise (fun a b => cmpList a.1 b.1 = .lt) ∧
  (∀ e ∈ m, e.2.Pairwise (· < ·)) ∧
  (∀ k, k ∈ m.map Prod.fst ↔ k ∈ done.map MusContext.mus) ∧
  (∀ e ∈ m, ∀ a, a ∈ e.2 ↔ ∃ mc, mc ∈ done ∧ mc.mus = e.1 ∧ a ∈ mc.lits)

theorem mergedInv_step {done : List MusContext}
    {m : List (List Int × List Int)} (h : MergedInv done m)
    (mc : MusContext) :
    MergedInv (done ++ [mc]) (mapExtend m mc.mus mc.lits) := by
  obtain ⟨hpw, hvals, hkeys, hchar⟩ := h
  refine ⟨pairwise_keys_mapExtend m mc.mus mc.lits hpw,
    pairwise_values_mapExtend m mc.mus mc.lits hvals, ?_, ?_⟩
  · intro k
    rw [mem_keys_mapExtend, hkeys, List.map_append, List.mem_append]
    simp only [List.map_cons, List.map_nil, List.mem_singleton]
    constructor
    · intro h
      rcases h with h | h
      · exact Or.inr h
      · exact Or.inl h
    · intro h
      rcases h with h | h
      · exact Or.inr h
      · exact Or.inl h
  · intro e he a
    rcases mapExtend_entry_charac m mc.mus mc.lits hpw e he with
      ⟨hek, hac⟩ | ⟨hem, hek⟩
    · rw [hac a]
      constructor
      · intro h
        rcases h with ⟨v, hv, hav⟩ | h
        · obtain ⟨mc', hmc', hmus', hlit'⟩ := (hchar (mc.mus, v) hv a).mp hav
          exact ⟨mc', List.mem_append_left _ hmc', by rw [hmus', hek], hlit'⟩
        · exact ⟨mc, List.mem_append_right _ (List.mem_singleton.mpr rfl),
            by rw [hek], h⟩
      · rintro ⟨mc', hmc', hmus', hlit'⟩
        rcases List.mem_append.mp hmc' with h1 | h1
        · left
          have hk : mc'.mus ∈ m.map Prod.fst := by
            rw [hkeys]
            exact List.mem_map_of_mem MusContext.mus h1
          obtain ⟨e2, he2, he2f⟩ := List.mem_map.mp hk
          have he2' : (mc.mus, e2.2) ∈ m := by
            have : e2 = (mc.mus, e2.2) := by
              calc e2 = (e2.1, e2.2) := rfl
                _ = (mc.mus, e2.2) := by rw [he2f, hmus', hek]
            rw [← this]
            exact he2
          refine ⟨e2.2, he2', ?_⟩
          rw [hchar (mc.mus, e2.2) he2' a]
          exact ⟨mc', h1, by rw [hmus', hek], hlit'⟩
        · right
          have : mc' = mc := List.mem_singleton.mp h1
          rw [← this]
          exact hlit'
    · rw [hchar e hem a]
      constructor
      · rintro ⟨mc', hmc', hmus', hlit'⟩
        exact ⟨mc', List.mem_append_left _ hmc', hmus', hlit'⟩
      · rintro ⟨mc', hmc', hmus', hlit'⟩
        rcases List.mem_append.mp hmc' with h1 | h1
        · exact ⟨mc', h1, hmus', hlit'⟩
        · exfalso
          have hmm : mc' = mc := List.mem_singleton.mp h1
          rw [hmm] at hmus'
          exact hek hmus'.symm

theorem mergedInv_foldl :
    ∀ (rest done : List MusContext) (m : List (List Int × List Int)),
      MergedInv done m →
      MergedInv (done ++ rest)
        (rest.foldl (fun m mc => mapExtend m mc.mus mc.lits) m) := by
  intro rest
  induction rest with
  | nil =>
    intro done m h
    rw [List.append_nil]
    exact h
  | cons mc mcs ih =>
    intro done m h
    have hstep := mergedInv_step h mc
    have hres := ih (done ++ [mc]) _ hstep
    rw [List.append_assoc] at hres
    exact hres

theorem mergedInv_nil : MergedInv [] [] := by
  refine ⟨List.Pairwise.nil, ?_, ?_, ?_⟩
  · intro e he
    cases he
  · intro k
    constructor
    · intro h; cases h
    · intro h; cases h
  · intro e he
    cases he

theorem mergedInv_mergeMap (v : List MusContext) :
    MergedInv v (v.foldl (fun m mc => mapExtend m mc.mus mc.lits) []) := by
  have h := mergedInv_foldl v [] [] mergedInv_nil
  rw [List.nil_append] at h
  exact h

theorem mapExtend_append_gt :
    ∀ (m : List (List Int × List Int)) (k ls : List Int),
      (∀ e ∈ m, cmpList e.1 k = .lt) →
      mapExtend m k ls = m ++ [(k, extendSorted [] ls)] := by
  intro m
  induction m with
  | nil => intro k ls _; rfl
  | cons e rest ih =>
    intro k ls h
    obtain ⟨k0, v0⟩ := e
    have hgt : cmpList k k0 = .gt := by
      rw [cmpList_gt_iff_lt]
      exact h (k0, v0) (List.mem_cons_self _ _)
    show (match cmpList k k0 with
          | Ordering.lt => (k, extendSorted [] ls) :: (k0, v0) :: rest
          | Ordering.eq => (k0, extendSorted v0 ls) :: rest
          | Ordering.gt => (k0, v0) :: mapExtend rest k ls) = _
    rw [hgt]
    rw [ih k ls (fun e2 he2 => h e2 (List.mem_cons_of_mem _ he2))]
    rfl

theorem extendSorted_nil_eq (ls : List Int) (h : ls.Pairwise (· < ·)) :
    extendSorted [] ls = ls := by
  apply pairwiseLt_eq_of_mem_iff (pairwise_extendSorted ls [] List.Pairwise.nil) h
  intro a
  rw [mem_extendSorted]
  constructor
  · intro hh
    rcases hh with hh | hh
    · cases hh
    · exact hh
  · intro hh
    exact Or.inr hh

theorem foldl_mapExtend_ascending :
    ∀ (es : List MusContext) (macc : List (List Int × List Int)),
      (∀ e ∈ macc, ∀ mc ∈ es, cmpList e.1 mc.mus = .lt) →
      es.Pairwise (fun a b => cmpList a.mus b.mus = .lt) →
      (∀ mc ∈ es, mc.lits.Pairwise (· < ·)) →
      es.foldl (fun m mc => mapExtend m mc.mus mc.lits) macc =
        macc ++ es.map (fun mc => (mc.mus, mc.lits)) := by
  intro es
  induction es with
  | nil =>
    intro macc _ _ _
    rw [List.map_nil, List.append_nil]
    rfl
  | cons mc mcs ih =>
    intro macc hlt hpw hsorted
    rw [List.pairwise_cons] at hpw
    have hstep : mapExtend macc mc.mus mc.lits =
        macc ++ [(mc.mus, mc.lits)] := by
      rw [mapExtend_append_gt macc mc.mus mc.lits
        (fun e he => hlt e he mc (List.mem_cons_self _ _))]
      rw [extendSorted_nil_eq mc.lits (hsorted mc (List.mem_cons_self _ _))]
    show List.foldl _ (mapExtend macc mc.mus mc.lits) mcs = _
    rw [hstep]
    rw [ih (macc ++ [(mc.mus, mc.lits)]) ?_ hpw.2
      (fun mc2 hmc2 => hsorted mc2 (List.mem_cons_of_mem _ hmc2))]
    · rw [List.map_cons, List.append_assoc]
      rfl
    · intro e he mc2 hmc2
      rcases List.mem_append.mp he with h1 | h1
      · exact hlt e h1 mc2 (List.mem_cons_of_mem _ hmc2)
      · have : e = (mc.mus, mc.lits) := List.mem_singleton.mp h1
        rw [this]
        exact hpw.1 mc2 hmc2

/-- **C8.**  `merge_muscontexts` returns a list in which each distinct
`mus` appears exactly once (the output's `mus` values are duplicate-free
and are exactly the input's `mus` values), each output context carries the
union of the `lits` of all input contexts with that `mus`, and the function
is idempotent: applying it to its own output returns an equal list. -/
theorem merge_muscontexts_spec (v : List MusContext) :
    ((mergeMuscontexts v).map MusContext.mus).Nodup ∧
    (∀ k, k ∈ (mergeMuscontexts v).map MusContext.mus ↔
      k ∈ v.map MusContext.mus) ∧
    (∀ mc, mc ∈ mergeMuscontexts v →
      ∀ a, a ∈ mc.lits ↔ ∃ mc', mc' ∈ v ∧ mc'.mus = mc.mus ∧ a ∈ mc'.lits) ∧
    mergeMuscontexts (mergeMuscontexts v) = mergeMuscontexts v := by
  obtain ⟨hpw, hvals, hkeys, hchar⟩ := mergedInv_mergeMap v
  have hmapmus : (mergeMuscontexts v).map MusContext.mus =
      (v.foldl (fun m mc => mapExtend m mc.mus mc.lits) []).map Prod.fst := by
    unfold mergeMuscontexts
    rw [List.map_map]
    rfl
  refine ⟨?_, ?_, ?_, ?_⟩
  · rw [hmapmus]
    have hp : ((v.foldl (fun m mc => mapExtend m mc.mus mc.lits) []).map
        Prod.fst).Pairwise (fun a b => cmpList a b = .lt) := by
      rw [List.pairwise_map]
      exact hpw
    exact List.Pairwise.imp (fun h => cmpList_lt_ne h) hp
  · intro k
    rw [hmapmus]
    exact hkeys k
  · intro mc hmc a
    obtain ⟨p, hp, hpmk⟩ := List.mem_map.mp hmc
    have hlits : mc.lits = p.2 := by rw [← hpmk]
    have hmus : mc.mus = p.1 := by rw [← hpmk]
    rw [hlits, hmus]
    exact hchar p hp a
  · unfold mergeMuscontexts
    set M := v.foldl (fun m mc => mapExtend m mc.mus mc.lits) [] with hM
    have hfold : (M.map (fun p => MusContext.mk p.2 p.1)).foldl
        (fun m mc => mapExtend m mc.mus mc.lits) [] =
        [] ++ (M.map (fun p => MusContext.mk p.2 p.1)).map
          (fun mc => (mc.mus, mc.lits)) := by
      apply foldl_mapExtend_ascending
      · intro e he mc hmc
        cases he
      · rw [List.pairwise_map]
        exact hpw
      · intro mc hmc
        obtain ⟨p, hp, hpmk⟩ := List.mem_map.mp hmc
        have : mc.lits = p.2 := by rw [← hpmk]
        rw [this]
        exact hvals p hp
    rw [hfold, List.nil_append, List.map_map, List.map_map]
    have hid2 : (((fun p : List Int × List Int => MusContext.mk p.2 p.1) ∘
        (fun mc : MusContext => (mc.mus, mc.lits))) ∘
        (fun p : List Int × List Int => MusContext.mk p.2 p.1)) =
        (fun p : List Int × List Int => MusContext.mk p.2 p.1) :=
      funext (fun p => rfl)
    rw [hid2]

/-- Witness for C8 at a concrete input (the shape of the Rust unit test
`test_merge_muscontexts_complex_case`): contexts for literals `1` and `2`
share the MUS `{10, 11}` and are merged into one context carrying both. -/
theorem merge_muscontexts_spec_witness :
    ∀ a, a ∈ (MusContext.mk [1, 2] [10, 11]).lits ↔
      ∃ mc', mc' ∈ [MusContext.mk [1] [10, 11], MusContext.mk [2] [10, 11],
        MusContext.mk [3] [20]] ∧
        mc'.mus = (MusContext.mk [1, 2] [10, 11]).mus ∧ a ∈ mc'.lits :=
  (merge_muscontexts_spec [MusContext.mk [1] [10, 11],
    MusContext.mk [2] [10, 11], MusContext.mk [3] [20]]).2.2.1
    (MusContext.mk [1, 2] [10, 11]) (by decide)

/-! ## `SatCore::do_solve_assumps`, the conflict budget and
`SatCore::assumption_solve` (demystify-lib/src/satcore/mod.rs, lines 26-158)

```rust
const CONFLICT_LIMIT: AtomicI64 = AtomicI64::new(1000);
const CONFLICT_COUNT: AtomicI64 = AtomicI64::new(0);

fn do_solve_assumps(solver: &mut ..., lits: &[Lit]) -> SolverResult {
    solver.set_limit(Conflicts(CONFLICT_LIMIT.load(Relaxed)));
    let solve = solver.solve_assumps(lits).unwrap();
    solver.set_limit(Conflicts(-1));
    if matches!(solve, SolverResult::Interrupted) {
        let count = CONFLICT_COUNT.fetch_add(1, Relaxed);
        if count > 1000 {
            let limit = CONFLICT_LIMIT.load(Relaxed);
            eprintln!("Warning: ... increasing limits ... {} to {}", limit, limit * 10);
            CONFLICT_LIMIT.store(CONFLICT_LIMIT.load(Relaxed) * 10, Relaxed);
            CONFLICT_COUNT.store(0, Relaxed);
        } else {
            let _ = CONFLICT_COUNT.fetch_update(Relaxed, Relaxed, |count| ...);
        }
    }
    solve
}

pub fn assumption_solve(&self, lits: &[Lit]) -> SearchResult<bool> {
    let solve = SatCore::do_solve_assumps(&mut solver, lits);
    match solve {
        SolverResult::Sat => Ok(true),
        SolverResult::Unsat => Ok(false),
        SolverResult::Interrupted => Err(SearchError::Limit),
    }
}
```

`CONFLICT_LIMIT` and `CONFLICT_COUNT` are declared **`const`**, not
`static`.  A Rust `const` item is inlined as a fresh rvalue at every use
site (the `declare_interior_mutable_const` pitfall), so every `.load`
observes the initializer of a newly created atomic and every `.store` /
`.fetch_add` / `.fetch_update` mutates a temporary that is dropped
immediately afterwards.  The embedding makes this semantics explicit:
a use of such an atomic is a function of its initializer only. -/

/-- The raw answer of one call into the underlying glucose solver
(`SolverResult` of rustsat, with `Interrupted` = conflict budget
exhausted). -/
inductive SolverResult where
  | sat
  | unsat
  | interrupted
deriving DecidableEq, Repr

/-- `.load(Relaxed)` on a `const`-declared atomic: the use site creates a
fresh atomic from the initializer, so the load observes the initializer. -/
def constAtomicLoad (init : Int) : Int := init

/-- `.fetch_add(1, Relaxed)` on a `const`-declared atomic: it returns the
previous value of the fresh temporary — the initializer — and the
incremented temporary is dropped. -/
def constAtomicFetchAddPrev (init : Int) : Int := init

/-- `SatCore::do_solve_assumps`.  The underlying solver call is modelled as
a function `raw` of the conflict budget it is handed via `set_limit`. -/
def doSolveAssumps (raw : Int → SolverResult) : SolverResult :=
  let solve := raw (constAtomicLoad 1000)
  match solve with
  | .interrupted =>
    let count := constAtomicFetchAddPrev 0
    if count > 1000 then
      -- loads a fresh `CONFLICT_LIMIT` (1000), prints the warning, stores
      -- `limit * 10` into a fresh `CONFLICT_LIMIT` and `0` into a fresh
      -- `CONFLICT_COUNT`; both stores die with their temporaries
      solve
    else
      -- `fetch_update` decrementing a fresh `CONFLICT_COUNT`; likewise dropped
      solve
  | _ => solve

/-- A sequence of `do_solve_assumps` calls.  Nothing persists between the
calls — the `const` atomics leave no shared state — so the sequence is
just a map. -/
def runSolveCalls (raws : List (Int → SolverResult)) : List SolverResult :=
  raws.map doSolveAssumps

theorem doSolveAssumps_budget (raw : Int → SolverResult) :
    doSolveAssumps raw = raw 1000 := by
  unfold doSolveAssumps constAtomicLoad constAtomicFetchAddPrev
  cases hf : raw 1000 with
  | sat => rfl
  | unsat => rfl
  | interrupted => rfl

/-- **C4 (code bug).**  The claim — and the code's own comment — says that
after enough limit-hitting solve calls in a row the global conflict budget
is multiplied by 10 and the larger budget persists across subsequent
`do_solve_assumps` calls.  In the code `CONFLICT_LIMIT` and
`CONFLICT_COUNT` are `const` (not `static`) atomics, so every store lands
in a discarded temporary: for every sequence of calls — in particular after
arbitrarily many consecutive `Interrupted` results — every call passes the
solver a conflict budget of exactly 1000, never 10000. -/
theorem conflict_limit_never_persists (raws : List (Int → SolverResult)) :
    runSolveCalls raws = raws.map (fun raw => raw 1000) := by
  unfold runSolveCalls
  induction raws with
  | nil => rfl
  | cons f fs ih =>
    rw [List.map_cons, List.map_cons, ih, doSolveAssumps_budget]

/-- `SatCore::assumption_solve`: map the solver result, turning a
budget-exhausted `Interrupted` into the typed error
`SearchError::Limit`. -/
def assumptionSolve (raw : Int → SolverResult) : Except RunErr Bool :=
  match doSolveAssumps raw with
  | .sat => .ok true
  | .unsat => .ok false
  | .interrupted => .error .limit

/-! ## The probe-collection pipeline of
`PuzzleSolver::get_many_vars_small_mus_quick`
(demystify/src/problem/solver.rs, lines 885-926)

```rust
let muses: Vec<_> = lits.iter()
    .flat_map(|x| std::iter::repeat_n(x, config.repeats as usize))
    .par_bridge()
    .map(|&x| { let ret = match config.strategy { ... }; ...; (x, ret) })
    .filter(|(_, y)| y.is_ok())
    .map(|(x, y)| (x, y.unwrap()))
    .filter(|(_, mus)| mus.is_some())
    .map(|(lit, mus)| (lit, mus.unwrap()))
    .collect();
for (k, v) in muses {
    let bts = v.iter().copied().collect();
    md.add_mus(k, bts);
}
```

The per-probe answers are a parameter (`results`: one pair per launched
task); the two `filter`/`map`(unwrap) stages become `filterMap`s whose
unwraps are total because the preceding filters removed the other
constructor. -/

/-- The `.filter(is_ok).map(unwrap).filter(is_some).map(unwrap)` result
pipeline of one round of `get_many_vars_small_mus_quick`. -/
def collectProbeResults
    (results : List (Int × Except RunErr (Option (List Int)))) :
    List (Int × List Int) :=
  ((results.filterMap (fun p =>
      match p.2 with
      | .ok y => some (p.1, y)
      | .error _ => none)).filterMap
    (fun p =>
      match p.2 with
      | some mus => some (p.1, mus)
      | none => none))

/-- Folding a round's collected muses into the `MusDict` via `add_mus`. -/
def applyProbeRound (md : List (Int × List MusContext))
    (results : List (Int × Except RunErr (Option (List Int)))) :
    List (Int × List MusContext) :=
  (collectProbeResults results).foldl (fun d p => addMus d p.1 p.2) md

/-- **C9.**  A solve call that exhausts its conflict budget returns the
typed error `SearchError::Limit` — never a SAT/UNSAT answer — and in the
parallel MUS driver a probe whose result is such an error is silently
dropped from the round: the driver records exactly the same `MusDict` as
if the errored probe had not run (no panic, no MUS recorded for it). -/
theorem limit_error_handling :
    (∀ raw : Int → SolverResult, doSolveAssumps raw = .interrupted →
      assumptionSolve raw = .error RunErr.limit) ∧
    (∀ (raw : Int → SolverResult) (b : Bool),
      assumptionSolve raw = .ok b → doSolveAssumps raw ≠ .interrupted) ∧
    (∀ (md : List (Int × List MusContext))
       (xs ys : List (Int × Except RunErr (Option (List Int))))
       (l : Int) (e : RunErr),
      applyProbeRound md (xs ++ (l, .error e) :: ys) =
        applyProbeRound md (xs ++ ys)) := by
  refine ⟨?_, ?_, ?_⟩
  · intro raw h
    unfold assumptionSolve
    rw [h]
  · intro raw b h hc
    unfold assumptionSolve at h
    rw [hc] at h
    cases h
  · intro md xs ys l e
    unfold applyProbeRound
    have hcoll : collectProbeResults (xs ++ (l, .error e) :: ys) =
        collectProbeResults (xs ++ ys) := by
      have hinner :
          List.filterMap (fun p : Int × Except RunErr (Option (List Int)) =>
            match p.2 with
            | Except.ok y => some (p.1, y)
            | Except.error _ => none) (xs ++ (l, .error e) :: ys) =
          List.filterMap (fun p : Int × Except RunErr (Option (List Int)) =>
            match p.2 with
            | Except.ok y => some (p.1, y)
            | Except.error _ => none) (xs ++ ys) := by
        rw [List.filterMap_append, List.filterMap_append,
          List.filterMap_cons_none (by rfl)]
      unfold collectProbeResults
      rw [hinner]
    rw [hcoll]

/-- Witness for C9: a probe that hits the limit maps to
`Err(SearchError::Limit)`, and dropping an errored probe from a concrete
round leaves the recorded dictionary unchanged. -/
theorem limit_error_handling_witness :
    assumptionSolve (fun _ => SolverResult.interrupted) =
      .error RunErr.limit ∧
    applyProbeRound [] ([((1 : Int), Except.ok (some [2]))] ++
        ((3 : Int), Except.error RunErr.limit) :: []) =
      applyProbeRound [] ([((1 : Int), Except.ok (some [2]))] ++ []) :=
  ⟨limit_error_handling.1 (fun _ => SolverResult.interrupted) (by rfl),
   limit_error_handling.2.2 [] [((1 : Int), Except.ok (some [2]))] []
     3 RunErr.limit⟩

/-! ## `SatCore::fix_values` (demystify-lib/src/satcore/mod.rs, lines 68-100)

```rust
fn fix_values(&self, lits: &[Lit]) {
    let mut fixed = self.fixed.borrow_mut();
    {
        let mut solver = self.solver.lock().unwrap();
        for &l in lits {
            if !fixed.contains(&l) {
                solver.add_unit(l).expect("FATAL: Solver bug 1");
                fixed.insert(l);
            }
        }
    }
    // As we added all 'lits' to 'fixed', if there are more things in 'fixed'
    // something we don't want is in fixed.
    if fixed.len() > lits.len() {
        println!("Rebooting solver");
        let mut solver = Solver::default();
        solver.add_cnf(self.cnf.as_ref().clone()).expect("FATAL: Solver bug 2");
        fixed.clear();
        for &l in lits {
            if !fixed.contains(&l) {
                solver.add_unit(l).expect("FATAL: Solver bug 3");
                fixed.insert(l);
            }
        }
        let mut mutex_solver = self.solver.lock().unwrap();
        *mutex_solver = solver;
    }
}
```

`add_unit` is called exactly when a literal is inserted into the `fixed`
`HashSet`, so the set of permanently asserted unit literals always equals
`fixed`; the function is embedded as the state transformer on that set.
Note the reboot test compares the *set* cardinality of `fixed` with the
*list* length of `lits` — duplicates in `lits` inflate the right-hand
side. -/

/-- `SatCore::fix_values`, acting on the set of permanently fixed
literals. -/
def fixValues (fixed : Finset ℤ) (lits : List ℤ) : Finset ℤ :=
  let f2 := lits.foldl (fun f l => insert l f) fixed
  if f2.card > lits.length then lits.foldl (fun f l => insert l f) ∅
  else f2

theorem foldl_insert_eq_union :
    ∀ (lits : List ℤ) (s : Finset ℤ),
      lits.foldl (fun f l => insert l f) s = s ∪ lits.toFinset := by
  intro lits
  induction lits with
  | nil =>
    intro s
    rw [List.toFinset_nil, Finset.union_empty]
    rfl
  | cons x xs ih =>
    intro s
    show xs.foldl (fun f l => insert l f) (insert x s) = _
    rw [ih (insert x s), List.toFinset_cons, Finset.insert_union,
      Finset.union_insert]

/-- **C6, counterexample.**  The claim "after a call that requests known
set `K`, no literal outside `K` remains permanently asserted … in
particular when the requested list `K` contains duplicate literals" is
false.  After `fix_values([1, 2, 3])` the fixed set is `{1, 2, 3}`; the
subsequent request `K = [1, 1, 2, 2]` is not a superset of it, yet no
rebuild happens (the set `{1, 2, 3}` has 3 elements, not more than the
4-element duplicated list), and the stale literal `3 ∉ K` remains
asserted. -/
theorem fix_values_counterexample :
    (3 : ℤ) ∈ fixValues (fixValues ∅ [1, 2, 3]) [1, 1, 2, 2] ∧
    (3 : ℤ) ∉ [(1 : ℤ), 1, 2, 2] ∧
    ¬ (fixValues ∅ [1, 2, 3] ⊆ [(1 : ℤ), 1, 2, 2].toFinset) := by
  refine ⟨by decide, by decide, ?_⟩
  intro hsub
  have h3 : (3 : ℤ) ∈ fixValues ∅ [1, 2, 3] := by decide
  have := hsub h3
  rw [List.mem_toFinset] at this
  exact absurd this (by decide)

/-- **C6, amended.**  When the requested list `K` is duplicate-free, the
claim holds in the strongest form: whatever was fixed before, after
`fix_values(K)` exactly the literals of `K` are asserted (the solver is
rebuilt exactly when the old fixed set is not contained in `K`).  With
duplicates in `K`, a stale literal can survive (see the
counterexample). -/
theorem fix_values_nodup_exact (fixed : Finset ℤ) (lits : List ℤ)
    (hnd : lits.Nodup) : fixValues fixed lits = lits.toFinset := by
  show (if (lits.foldl (fun f l => insert l f) fixed).card > lits.length
      then lits.foldl (fun f l => insert l f) ∅
      else lits.foldl (fun f l => insert l f) fixed) = lits.toFinset
  rw [foldl_insert_eq_union lits fixed, foldl_insert_eq_union lits ∅,
    Finset.empty_union]
  have hlen : lits.toFinset.card = lits.length := List.toFinset_card_of_nodup hnd
  by_cases hsub : fixed ⊆ lits.toFinset
  · have hun : fixed ∪ lits.toFinset = lits.toFinset :=
      Finset.union_eq_right.mpr hsub
    rw [hun]
    rw [if_neg (by omega)]
  · have hssub : lits.toFinset ⊂ fixed ∪ lits.toFinset := by
      constructor
      · exact Finset.subset_union_right
      · intro hsub2
        apply hsub
        intro a ha
        exact hsub2 (Finset.mem_union_left _ ha)
    have hcard : lits.toFinset.card < (fixed ∪ lits.toFinset).card :=
      Finset.card_lt_card hssub
    rw [if_pos (by omega)]

/-- Witness for the amended C6 theorem: previously fixed `{1, 5}`, request
`[2, 3]` (duplicate-free, not a superset): the solver is rebuilt and
exactly `{2, 3}` is asserted. -/
theorem fix_values_nodup_exact_witness :
    fixValues {1, 5} [2, 3] = [(2 : ℤ), 3].toFinset :=
  fix_values_nodup_exact {1, 5} [2, 3] (by decide)

end Demystify
